import Mathlib

/-!
# Nested-parallel iteration (`parallel_for_for.h`) and the batch quad intersector
(`quadi_intersector.h`)

A shallow embedding of `ParallelForForState::init`, `parallel_for_for`,
`parallel_for_for_reduce` and of the batch form of `QuadMiIntersector1Moeller::intersect` /
`QuadMiIntersector1Pluecker::intersect`, followed by the properties proved about them.

Conventions of the embedding.

* In the first embedding `size_t` values are unbounded natural numbers.  A result of type
  `Option _` is `none` exactly when the C++ code would leave the domain in which naturals model
  it: an access `array2[i]` with `i ≥ array2.size()` (the `assert` in the sweep of `init`), a
  store outside the fixed tables `i0`/`j0`, an unsigned subtraction that would wrap, a division
  by zero, a read of a table slot that was never written, or a loop that exceeds the iteration
  bound given to it.  Sums and products are exact there, so this embedding is the code as long
  as no `size_t` sum or product wraps.
* The namespace `Word64` embeds the same functions in 64-bit arithmetic, every sum, difference
  and product reduced modulo `2^64`; there `none` is an access `array2[i]` with
  `i ≥ array2.size()`, a division by zero or an exceeded iteration bound.
* A kernel `func` is an arbitrary caller-supplied callable.  The embedding records every call
  made to it, in order, as a `KernelCall`.
-/

namespace embree

/-! ## Data model -/

/-- A ragged array of arrays: every entry is a null pointer (`none`) or a sub-array, given by
the list of its elements. -/
abbrev ArrayArray (α : Type) := List (Option (List α))

/-- The expression `array2[i] ? array2[i]->size() : 0` for the entry `a = array2[i]`. -/
def arraySize {α : Type} : Option (List α) → Nat
  | some a => a.length
  | none => 0

/-- Flattened index of the first element of `array2[i]`: `n_0 + ... + n_{i-1}`. -/
def flatStart {α : Type} (array2 : ArrayArray α) (i : Nat) : Nat :=
  ((array2.take i).map arraySize).sum

/-- Total number of elements `n_0 + ... + n_{L-1}`. -/
def flatSize {α : Type} (array2 : ArrayArray α) : Nat :=
  (array2.map arraySize).sum

/-- The constant `ParallelForForState::MAX_TASKS`. -/
def MAX_TASKS : Nat := 32

/-- Unsigned subtraction `a - b`, defined only when it does not wrap. -/
def usub (a b : Nat) : Option Nat :=
  if b ≤ a then some (a - b) else none

/-- A table `size_t tab[MAX_TASKS]`; a slot that was never written reads as `none`. -/
abbrev TaskTable := Nat → Option Nat

/-- The store `tab[t] = v`; `none` when `t` is outside the `MAX_TASKS` slots. -/
def store (tab : TaskTable) (t v : Nat) : Option TaskTable :=
  if t < MAX_TASKS then some (fun u => if u = t then some v else tab u) else none

/-- The class `ParallelForForState`. -/
structure ParallelForForState where
  i0 : TaskTable
  j0 : TaskTable
  taskCount : Nat
  N : Nat

/-- The member function `ParallelForForState::size`. -/
def ParallelForForState.size (state : ParallelForForState) : Nat := state.N

/-! ## `ParallelForForState::init` -/

/-- The variables carried through the boundary sweep of `init` (lines 65-81). -/
structure SweepVars where
  taskIndex : Nat
  k : Nat
  k0 : Nat
  i0 : TaskTable
  j0 : TaskTable

/-- The inner loop `while (j<M && k+M-j >= k0 && taskIndex < taskCount)` of `init` for the
sub-array with index `i` and size `M`, with `size_t` values as unbounded naturals.  The first
argument bounds the number of iterations; the result is the final `j` and the updated
variables. -/
def initWhile (taskCount N i M : Nat) : Nat → Nat → SweepVars → Option (Nat × SweepVars)
  | 0, j, s =>
    if j < M ∧ s.k + M - j ≥ s.k0 ∧ s.taskIndex < taskCount then none else some (j, s)
  | fuel + 1, j, s =>
    if j < M ∧ s.k + M - j ≥ s.k0 ∧ s.taskIndex < taskCount then do
      let i0 ← store s.i0 s.taskIndex i
      let d ← usub s.k0 s.k
      let j0 ← store s.j0 s.taskIndex (j + d)
      initWhile taskCount N i M fuel (j + d)
        ⟨s.taskIndex + 1, s.k0, (s.taskIndex + 1) * N / taskCount, i0, j0⟩
    else some (j, s)

/-- The outer loop `for (size_t i=0, k=0; taskIndex < taskCount; i++)` of `init`.  The list is
`array2[i], array2[i+1], ...`; entering the body with no entry left is the failure of
`assert(i<array2.size())`. -/
def initFor {α : Type} (taskCount N : Nat) :
    List (Option (List α)) → Nat → SweepVars → Option SweepVars
  | [], _, s => if s.taskIndex < taskCount then none else some s
  | a :: rest, i, s =>
    if s.taskIndex < taskCount then do
      let M := arraySize a
      let (j, s1) ← initWhile taskCount N i M taskCount 0 s
      let d ← usub M j
      initFor taskCount N rest (i + 1) ⟨s1.taskIndex, s1.k + d, s1.k0, s1.i0, s1.j0⟩
    else some s

/-- The function `ParallelForForState::init`, with `size_t` values as unbounded naturals;
`numThreads` is the value of `scheduler->getNumThreads()`. -/
def ParallelForForState.init {α : Type} (array2 : ArrayArray α) (minStepSize numThreads : Nat) :
    Option ParallelForForState :=
  let N := array2.foldl (fun n a => n + arraySize a) 0
  if minStepSize = 0 then none else do
    let numBlocks := (N + minStepSize - 1) / minStepSize
    let taskCount := max 1 (min numThreads (min numBlocks MAX_TASKS))
    let i0 ← store (fun _ => none) 0 0
    let j0 ← store (fun _ => none) 0 0
    let s ← initFor taskCount N array2 0 ⟨1, 0, 1 * N / taskCount, i0, j0⟩
    some ⟨s.i0, s.j0, taskCount, N⟩

/-! ## `parallel_for_for` -/

/-- One call `func(array2[i], range<size_t>(r0,r1), k)`.  The field `i` is the value of the
loop cursor at the call; `array` is the pointer `array2[i]` that is passed. -/
structure KernelCall (α : Type) where
  i : Nat
  array : Option (List α)
  r0 : Nat
  r1 : Nat
  k : Nat
deriving DecidableEq, Repr

/-- The loop `for (size_t i=i0; k<k1; i++)` of a task of `parallel_for_for` (lines 110-115).
The list is `array2[i], array2[i+1], ...`; the result is the sequence of kernel calls. -/
def forForWalk {α : Type} (k1 : Nat) :
    List (Option (List α)) → Nat → Nat → Nat → Option (List (KernelCall α))
  | [], _, _, k => if k < k1 then none else some []
  | a :: rest, i, j0, k =>
    if k < k1 then do
      let N := arraySize a
      let r0 := j0
      let r1 := min N (r0 + k1 - k)
      let d ← usub r1 r0
      let calls ← forForWalk k1 rest (i + 1) 0 (k + d)
      some (if r1 > r0 then ⟨i, a, r0, r1, k⟩ :: calls else calls)
    else some []

/-- The task body of `parallel_for_for` (lines 102-115) for task `taskIndex`, with `size_t`
values as unbounded naturals. -/
def forForTask {α : Type} (array2 : ArrayArray α) (state : ParallelForForState)
    (taskIndex : Nat) : Option (List (KernelCall α)) := do
  let k0 := (taskIndex + 0) * state.size / state.taskCount
  let k1 := (taskIndex + 1) * state.size / state.taskCount
  let i0 ← state.i0 taskIndex
  let j0 ← state.j0 taskIndex
  forForWalk k1 (array2.drop i0) i0 j0 k0

/-- Modelled from the spec: `parallel_for(T, task)` of `parallel_for.h`, which is not part of
the sources at hand, "invoking `task(t)` for t in [0,T) concurrently and blocking until all
return".  The tasks of this file do not communicate, so the outcome is the list of the
outcomes of `task 0`, ..., `task (T-1)`. -/
def parallel_for {β : Type} (task : Nat → Option β) : Nat → Option (List β)
  | 0 => some []
  | n + 1 => do
    let rs ← parallel_for task n
    let r ← task n
    some (rs ++ [r])

/-- The function `parallel_for_for(array2, minStepSize, func)`: the kernel calls made by each
task, listed by task index. -/
def parallel_for_for {α : Type} (array2 : ArrayArray α) (minStepSize numThreads : Nat) :
    Option (List (List (KernelCall α))) := do
  let state ← ParallelForForState.init array2 minStepSize numThreads
  parallel_for (forForTask array2 state) state.taskCount

/-! ## `parallel_for_for_reduce` -/

/-- The loop of a task of `parallel_for_for_reduce` (lines 141-146).  `temp` is the current
content of the scratch slot `temp[taskIndex]`; the result is the sequence of kernel calls and
the final content of the slot. -/
def reduceWalk {α V : Type} (func : Option (List α) → Nat → Nat → Nat → V) (k1 : Nat) :
    List (Option (List α)) → Nat → Nat → Nat → V → Option (List (KernelCall α) × V)
  | [], _, _, k, temp => if k < k1 then none else some ([], temp)
  | a :: rest, i, j0, k, temp =>
    if k < k1 then do
      let N := arraySize a
      let r0 := j0
      let r1 := min N (r0 + k1 - k)
      let d ← usub r1 r0
      if r1 > r0 then do
        let (calls, out) ← reduceWalk func k1 rest (i + 1) 0 (k + d) (func a r0 r1 k)
        some (⟨i, a, r0, r1, k⟩ :: calls, out)
      else reduceWalk func k1 rest (i + 1) 0 (k + d) temp
    else some ([], temp)

/-- The task body of `parallel_for_for_reduce` (lines 133-146) for task `taskIndex`, with
`size_t` values as unbounded naturals; `temp` is the content of `temp[taskIndex]` before the
task runs. -/
def reduceTask {α V : Type} (func : Option (List α) → Nat → Nat → Nat → V)
    (array2 : ArrayArray α) (state : ParallelForForState) (temp : V) (taskIndex : Nat) :
    Option (List (KernelCall α) × V) := do
  let k0 := (taskIndex + 0) * state.size / state.taskCount
  let k1 := (taskIndex + 1) * state.size / state.taskCount
  let i0 ← state.i0 taskIndex
  let j0 ← state.j0 taskIndex
  reduceWalk func k1 (array2.drop i0) i0 j0 k0 temp

/-- The function `parallel_for_for_reduce(array2, minStepSize, identity, func, reduction)`.
The array `Value temp[MAX_TASKS]` is declared without being filled; `temp0 t` is whatever
slot `t` holds at that point.  The result is the kernel calls of each task and the returned
value. -/
def parallel_for_for_reduce {α V : Type} (temp0 : Nat → V) (array2 : ArrayArray α)
    (minStepSize numThreads : Nat) (identity : V)
    (func : Option (List α) → Nat → Nat → Nat → V) (reduction : V → V → V) :
    Option (List (List (KernelCall α)) × V) := do
  let state ← ParallelForForState.init array2 minStepSize numThreads
  let rs ← parallel_for (fun t => reduceTask func array2 state (temp0 t) t) state.taskCount
  let temp := rs.map Prod.snd
  some (rs.map Prod.fst, temp.foldl reduction identity)

/-! ## The same code in 64-bit `size_t` arithmetic

The definitions above take `size_t` values as unbounded naturals.  The namespace `Word64`
repeats `init`, `parallel_for_for` and `parallel_for_for_reduce` with every `size_t` addition,
subtraction and multiplication reduced modulo `2^64`, as the machine performs them.  A
sub-array is represented by the value that its `size()` returns, which is all that `init` and
the task loops read of it. -/

namespace Word64

/-- The sum `a + b` of two `size_t` values. -/
def add (a b : Nat) : Nat := (a + b) % 2 ^ 64

/-- The difference `a - b` of two `size_t` values. -/
def sub (a b : Nat) : Nat := (a + (2 ^ 64 - b % 2 ^ 64)) % 2 ^ 64

/-- The product `a * b` of two `size_t` values. -/
def mul (a b : Nat) : Nat := (a * b) % 2 ^ 64

/-- A ragged array of arrays: every entry is a null pointer (`none`) or a sub-array, given by
the `size_t` value of its `size()`. -/
abbrev SizeArray := List (Option Nat)

/-- The expression `array2[i] ? array2[i]->size() : 0` for the entry `a = array2[i]`. -/
def arraySize : Option Nat → Nat
  | some n => n
  | none => 0

/-- The inner loop `while (j<M && k+M-j >= k0 && taskIndex < taskCount)` of `init`
(lines 73-79) in `size_t` arithmetic.  The first argument bounds the number of iterations. -/
def initWhile (taskCount N i M : Nat) : Nat → Nat → SweepVars → Option (Nat × SweepVars)
  | 0, j, s =>
    if j < M ∧ sub (add s.k M) j ≥ s.k0 ∧ s.taskIndex < taskCount then none else some (j, s)
  | fuel + 1, j, s =>
    if j < M ∧ sub (add s.k M) j ≥ s.k0 ∧ s.taskIndex < taskCount then do
      let i0 ← store s.i0 s.taskIndex i
      let j1 := add j (sub s.k0 s.k)
      let j0 ← store s.j0 s.taskIndex j1
      initWhile taskCount N i M fuel j1
        ⟨s.taskIndex + 1, s.k0, mul (s.taskIndex + 1) N / taskCount, i0, j0⟩
    else some (j, s)

/-- The outer loop `for (size_t i=0, k=0; taskIndex < taskCount; i++)` of `init`
(lines 69-81) in `size_t` arithmetic.  The list is `array2[i], array2[i+1], ...`; entering the
body with no entry left is the failure of `assert(i<array2.size())`. -/
def initFor (taskCount N : Nat) : SizeArray → Nat → SweepVars → Option SweepVars
  | [], _, s => if s.taskIndex < taskCount then none else some s
  | a :: rest, i, s =>
    if s.taskIndex < taskCount then do
      let M := arraySize a
      let (j, s1) ← initWhile taskCount N i M taskCount 0 s
      initFor taskCount N rest (i + 1) ⟨s1.taskIndex, add s1.k (sub M j), s1.k0, s1.i0, s1.j0⟩
    else some s

/-- The function `ParallelForForState::init` (lines 49-82) in `size_t` arithmetic. -/
def init (array2 : SizeArray) (minStepSize numThreads : Nat) : Option ParallelForForState :=
  let N := array2.foldl (fun n a => add n (arraySize a)) 0
  if minStepSize = 0 then none else do
    let numBlocks := sub (add N minStepSize) 1 / minStepSize
    let taskCount := max 1 (min numThreads (min numBlocks MAX_TASKS))
    let i0 ← store (fun _ => none) 0 0
    let j0 ← store (fun _ => none) 0 0
    let s ← initFor taskCount N array2 0 ⟨1, 0, mul 1 N / taskCount, i0, j0⟩
    some ⟨s.i0, s.j0, taskCount, N⟩

/-- One call `func(array2[i], range<size_t>(r0,r1), k)`; `i` is the value of the loop cursor
and `array` the entry `array2[i]` that is passed. -/
structure KernelCall where
  i : Nat
  array : Option Nat
  r0 : Nat
  r1 : Nat
  k : Nat
deriving DecidableEq, Repr

/-- The loop `for (size_t i=i0; k<k1; i++)` of a task of `parallel_for_for` (lines 110-115)
in `size_t` arithmetic. -/
def forForWalk (k1 : Nat) : SizeArray → Nat → Nat → Nat → Option (List KernelCall)
  | [], _, _, k => if k < k1 then none else some []
  | a :: rest, i, j0, k =>
    if k < k1 then do
      let N := arraySize a
      let r0 := j0
      let r1 := min N (sub (add r0 k1) k)
      let calls ← forForWalk k1 rest (i + 1) 0 (add k (sub r1 r0))
      some (if r1 > r0 then ⟨i, a, r0, r1, k⟩ :: calls else calls)
    else some []

/-- The task body of `parallel_for_for` (lines 102-115) in `size_t` arithmetic. -/
def forForTask (array2 : SizeArray) (state : ParallelForForState) (taskIndex : Nat) :
    Option (List KernelCall) := do
  let k0 := mul (taskIndex + 0) state.size / state.taskCount
  let k1 := mul (taskIndex + 1) state.size / state.taskCount
  let i0 ← state.i0 taskIndex
  let j0 ← state.j0 taskIndex
  forForWalk k1 (array2.drop i0) i0 j0 k0

/-- The function `parallel_for_for(array2, minStepSize, func)` in `size_t` arithmetic: the
kernel calls made by each task, listed by task index. -/
def parallel_for_for (array2 : SizeArray) (minStepSize numThreads : Nat) :
    Option (List (List KernelCall)) := do
  let state ← init array2 minStepSize numThreads
  parallel_for (forForTask array2 state) state.taskCount

/-- The loop of a task of `parallel_for_for_reduce` (lines 141-146) in `size_t` arithmetic;
`temp` is the current content of the scratch slot `temp[taskIndex]`. -/
def reduceWalk {V : Type} (func : Option Nat → Nat → Nat → Nat → V) (k1 : Nat) :
    SizeArray → Nat → Nat → Nat → V → Option (List KernelCall × V)
  | [], _, _, k, temp => if k < k1 then none else some ([], temp)
  | a :: rest, i, j0, k, temp =>
    if k < k1 then do
      let N := arraySize a
      let r0 := j0
      let r1 := min N (sub (add r0 k1) k)
      if r1 > r0 then do
        let (calls, out) ← reduceWalk func k1 rest (i + 1) 0 (add k (sub r1 r0))
          (func a r0 r1 k)
        some (⟨i, a, r0, r1, k⟩ :: calls, out)
      else reduceWalk func k1 rest (i + 1) 0 (add k (sub r1 r0)) temp
    else some ([], temp)

/-- The task body of `parallel_for_for_reduce` (lines 133-146) in `size_t` arithmetic. -/
def reduceTask {V : Type} (func : Option Nat → Nat → Nat → Nat → V) (array2 : SizeArray)
    (state : ParallelForForState) (temp : V) (taskIndex : Nat) :
    Option (List KernelCall × V) := do
  let k0 := mul (taskIndex + 0) state.size / state.taskCount
  let k1 := mul (taskIndex + 1) state.size / state.taskCount
  let i0 ← state.i0 taskIndex
  let j0 ← state.j0 taskIndex
  reduceWalk func k1 (array2.drop i0) i0 j0 k0 temp

/-- The function `parallel_for_for_reduce` (lines 125-153) in `size_t` arithmetic; `temp0 t`
is what slot `t` of the array `temp` holds when it is declared. -/
def parallel_for_for_reduce {V : Type} (temp0 : Nat → V) (array2 : SizeArray)
    (minStepSize numThreads : Nat) (identity : V)
    (func : Option Nat → Nat → Nat → Nat → V) (reduction : V → V → V) :
    Option (List (List KernelCall) × V) := do
  let state ← init array2 minStepSize numThreads
  let rs ← parallel_for (fun t => reduceTask func array2 state (temp0 t) t) state.taskCount
  let temp := rs.map Prod.snd
  some (rs.map Prod.fst, temp.foldl reduction identity)

end Word64

/-! ## Notions used to state the properties -/

/-- The task count chosen by `init`. -/
def taskCountOf (N minStepSize numThreads : Nat) : Nat :=
  max 1 (min numThreads (min ((N + minStepSize - 1) / minStepSize) MAX_TASKS))

/-- What `init` has to record for task `t`: a start coordinate `(i, j)` whose flattened
position is `⌊t*N/T⌋`; task 0 starts at `(0, 0)`; for `t ≥ 1`, `array2[i]` exists and is not empty, `j` is at most its
size, and the start of task `t-1` lies in the same or an earlier sub-array. -/
def Recorded {α : Type} (a : ArrayArray α) (T : Nat) (i0 j0 : TaskTable) (t : Nat) : Prop :=
  ∃ i j, i0 t = some i ∧ j0 t = some j ∧ flatStart a i + j = t * flatSize a / T ∧
    (t = 0 → i = 0 ∧ j = 0) ∧
    (0 < t → (∃ x, a[i]? = some x ∧ j ≤ arraySize x ∧ 0 < arraySize x) ∧
      ∃ p, i0 (t - 1) = some p ∧ p ≤ i)

/-- Invariant of the sweep of `init` while the cursor is at `array2[i]`. -/
structure SweepInv {α : Type} (a : ArrayArray α) (T i : Nat) (s : SweepVars) : Prop where
  tpos : 1 ≤ s.taskIndex
  tle : s.taskIndex ≤ T
  k0_eq : s.k0 = s.taskIndex * flatSize a / T
  recd : ∀ t, t < s.taskIndex → Recorded a T s.i0 s.j0 t
  recd_le : ∀ t, t < s.taskIndex → ∃ p, s.i0 t = some p ∧ p ≤ i
  fresh : ∀ t, s.taskIndex ≤ t → s.i0 t = none ∧ s.j0 t = none

/-- The flattened indices visited by a kernel call `func(array2[i], [r0,r1), k)`:
`(n_0 + ... + n_{i-1}) + j` for `r0 ≤ j < r1`, in increasing order. -/
def KernelCall.visits {α : Type} (a : ArrayArray α) (c : KernelCall α) : List Nat :=
  (List.range' c.r0 (c.r1 - c.r0)).map (fun j => flatStart a c.i + j)

/-- The elements of the sub-range `[r0,r1)` of the sub-array passed to a kernel call. -/
def KernelCall.elements {α : Type} (c : KernelCall α) : List α :=
  match c.array with
  | some xs => (xs.drop c.r0).take (c.r1 - c.r0)
  | none => []

/-- A well-formed kernel call: the sub-array passed is `array2[i]` and is present, the
sub-range is non-empty and inside it, and `k` is the flattened index of `r0`. -/
structure GoodCall {α : Type} (a : ArrayArray α) (c : KernelCall α) : Prop where
  entry : a[c.i]? = some c.array
  present : ∃ xs, c.array = some xs
  nonempty : c.r0 < c.r1
  inside : c.r1 ≤ arraySize c.array
  base : c.k = flatStart a c.i + c.r0

/-- The content of a scratch slot after the kernel calls `calls` of one task of
`parallel_for_for_reduce`: every call overwrites it with the value the kernel returns. -/
def slotAfter {α V : Type} (func : Option (List α) → Nat → Nat → Nat → V) (temp : V)
    (calls : List (KernelCall α)) : V :=
  calls.foldl (fun _ c => func c.array c.r0 c.r1 c.k) temp

/-- The sequence with sub-array sizes 3, 0, 2, 1 of scenario S1. -/
def scenarioS1 : ArrayArray Char :=
  [some ['a', 'b', 'c'], some [], some ['d', 'e'], some ['f']]

/-- The flattened range `[k0, k1)` that the task body computes for task `taskIndex`
(lines 103-104). -/
def taskRange (state : ParallelForForState) (taskIndex : Nat) : Nat × Nat :=
  ((taskIndex + 0) * state.size / state.taskCount,
    (taskIndex + 1) * state.size / state.taskCount)

/-- Size of `array2[i]`, zero when the entry is null or `i` is not an index of `array2`. -/
def sizeAt {α : Type} (array2 : ArrayArray α) (i : Nat) : Nat :=
  match array2[i]? with
  | some x => arraySize x
  | none => 0

/-- The start-coordinate invariant in the wording of the specification, for task `t`:
`j0[t] < n_{i0[t]}`, or else `i0[t] = i0[t-1]` and task `t-1` (which owns the flattened
range up to `⌊t*N/T⌋`) ends exactly at the end of sub-array `A_{i0[t-1]}`. -/
def StartInvariantAsWorded {α : Type} (array2 : ArrayArray α) (st : ParallelForForState)
    (t : Nat) : Prop :=
  ∃ i j, st.i0 t = some i ∧ st.j0 t = some j ∧
    (j < sizeAt array2 i ∨
      (1 ≤ t ∧ ∃ p, st.i0 (t - 1) = some p ∧ i = p ∧
        t * st.size / st.taskCount = flatStart array2 (p + 1)))

/-- The value `func(array2[i], range(r0,r1), k)` that the kernel returns for a recorded
call. -/
def KernelCall.result {α V : Type} (func : Option (List α) → Nat → Nat → Nat → V)
    (c : KernelCall α) : V :=
  func c.array c.r0 c.r1 c.k

/-! ## Batch form of the quad intersectors (`quadi_intersector.h`) -/

namespace isa

/-- Scan of the bits `i, i+1, ..., i+n-1` of `valid` for the first one that is set. -/
def bsfFrom (valid : Nat) : Nat → Nat → Option Nat
  | 0, _ => none
  | n + 1, i => if valid.testBit i then some i else bsfFrom valid n (i + 1)

/-- Modelled from the spec: the intrinsic `__bscf(valid)` is not part of the sources at hand;
the batch form "iterates over set bits of a scalar validity mask".  On the 64-bit word
`valid` it yields the index of the lowest set bit together with `valid` with that bit
cleared; it has no result when no bit is set. -/
def __bscf (valid : Nat) : Option (Nat × Nat) :=
  (bsfFrom valid 64 0).map (fun i => (i, valid ^^^ (1 <<< i)))

/-- The loop `for (size_t n=0; n<num; n++) intersect(pre[i],*rays[i],context,prim[n])`, with
`prim` the array of the `num` primitives and `intersect1` the per-primitive intersector
(with `pre[i]` and `context` fixed) as an update of the ray. -/
def intersectPrims {R P : Type} (intersect1 : R → P → R) (ray : R) (prim : List P) : R :=
  prim.foldl intersect1 ray

/-- The loop `do { ... } while(unlikely(valid))` of the batch form of `intersect` (lines 54-60
and 159-165).  `intersect1 i` is the per-primitive intersector called with `pre[i]`; `tfar`
reads the field `tfar` of a ray and `lt` is the comparison `<` of two such values.  The first
argument bounds the number of iterations.  The array `rays` is the list of the rays that its
entries point to, taken to be distinct objects.  The result is the final `valid_isec`, the
rays, and the indices `i` of the successive iterations. -/
def batchLoop {R P F : Type} (intersect1 : Nat → R → P → R) (tfar : R → F)
    (lt : F → F → Bool) (prim : List P) :
    Nat → Nat → Nat → List R → Option (Nat × List R × List Nat)
  | 0, _, _, _ => none
  | fuel + 1, valid, valid_isec, rays => do
    let (i, valid1) ← __bscf valid
    let ray ← rays[i]?
    let old_far := tfar ray
    let ray1 := intersectPrims (intersect1 i) ray prim
    let valid_isec1 := valid_isec ||| (if lt (tfar ray1) old_far then 1 <<< i else 0)
    let rays1 := rays.set i ray1
    if valid1 ≠ 0 then do
      let (mask, rays2, trace) ← batchLoop intersect1 tfar lt prim fuel valid1 valid_isec1 rays1
      some (mask, rays2, i :: trace)
    else some (valid_isec1, rays1, [i])

/-- The batch form `QuadMiIntersector1Moeller::intersect(pre, valid, rays, context, ty, prim,
num)`; `valid` is a 64-bit word, so 64 iterations suffice. -/
def QuadMiIntersector1Moeller.intersect {R P F : Type} (intersect1 : Nat → R → P → R)
    (tfar : R → F) (lt : F → F → Bool) (valid : Nat) (rays : List R) (prim : List P) :
    Option (Nat × List R × List Nat) :=
  batchLoop intersect1 tfar lt prim 64 valid 0 rays

/-- The batch form `QuadMiIntersector1Pluecker::intersect`, whose body is the same
loop around the Pluecker per-primitive intersector. -/
def QuadMiIntersector1Pluecker.intersect {R P F : Type} (intersect1 : Nat → R → P → R)
    (tfar : R → F) (lt : F → F → Bool) (valid : Nat) (rays : List R) (prim : List P) :
    Option (Nat × List R × List Nat) :=
  batchLoop intersect1 tfar lt prim 64 valid 0 rays

end isa

/-! # Properties -/

/-! ## Arithmetic of the task boundaries -/

theorem bnd_mono (t N T : Nat) : t * N / T ≤ (t + 1) * N / T :=
  Nat.div_le_div_right (Nat.mul_le_mul_right _ (Nat.le_succ _))

theorem bnd_mono_le {s t : Nat} (N T : Nat) (h : s ≤ t) : s * N / T ≤ t * N / T :=
  Nat.div_le_div_right (Nat.mul_le_mul_right _ h)

theorem bnd_lt_size {t N T : Nat} (h : t < T) (hN : 0 < N) : t * N / T < N := by
  rw [Nat.div_lt_iff_lt_mul (by omega)]
  exact (Nat.mul_lt_mul_of_pos_right h hN).trans_eq (Nat.mul_comm _ _)

theorem bnd_strict {N T : Nat} (t : Nat) (hT : 0 < T) (h : T ≤ N) :
    t * N / T < (t + 1) * N / T := by
  have e : (t + 1) * N = t * N + N := by ring
  have h2 : t * N + T ≤ t * N + N := by omega
  calc t * N / T < t * N / T + 1 := Nat.lt_succ_self _
    _ = (t * N + T) / T := by rw [Nat.add_div_right _ hT]
    _ ≤ (t * N + N) / T := Nat.div_le_div_right h2
    _ = (t + 1) * N / T := by rw [e]

theorem bnd_last {N T : Nat} (hT : 0 < T) : T * N / T = N :=
  Nat.mul_div_cancel_left N hT

theorem numBlocks_le (N m : Nat) (hm : 1 ≤ m) : (N + m - 1) / m ≤ N := by
  rcases Nat.eq_zero_or_pos N with h | h
  · subst h
    have : (0 + m - 1) / m = 0 := Nat.div_eq_of_lt (by omega)
    omega
  · calc (N + m - 1) / m ≤ (N * m) / m := by
          apply Nat.div_le_div_right
          have : N + m ≤ N * m + 1 := by nlinarith
          omega
      _ = N := Nat.mul_div_cancel _ (by omega)

theorem taskCountOf_pos (N m th : Nat) : 1 ≤ taskCountOf N m th := by
  unfold taskCountOf; omega

theorem taskCountOf_le_max (N m th : Nat) : taskCountOf N m th ≤ MAX_TASKS := by
  unfold taskCountOf MAX_TASKS; omega

theorem taskCountOf_le_size (N m th : Nat) (hm : 1 ≤ m) (h : 2 ≤ taskCountOf N m th) :
    taskCountOf N m th ≤ N := by
  have := numBlocks_le N m hm
  unfold taskCountOf at *; omega

theorem taskCountOf_le_size_of_pos (N m th : Nat) (hm : 1 ≤ m) (hN : 0 < N) :
    taskCountOf N m th ≤ N := by
  have := numBlocks_le N m hm
  unfold taskCountOf at *; omega

/-! ## Flattened positions -/

theorem foldl_arraySize {α : Type} (l : List (Option (List α))) (n : Nat) :
    l.foldl (fun n a => n + arraySize a) n = n + (l.map arraySize).sum := by
  induction l generalizing n with
  | nil => simp
  | cons x xs ih => simp [ih, Nat.add_assoc]

theorem flatStart_append_length {α : Type} (done rest : List (Option (List α))) :
    flatStart (done ++ rest) done.length = (done.map arraySize).sum := by
  simp [flatStart]

theorem flatSize_append {α : Type} (done rest : List (Option (List α))) :
    flatSize (done ++ rest) = (done.map arraySize).sum + (rest.map arraySize).sum := by
  simp [flatSize]

theorem flatStart_succ {α : Type} (a : ArrayArray α) (i : Nat) (x : Option (List α))
    (hx : a[i]? = some x) : flatStart a (i + 1) = flatStart a i + arraySize x := by
  unfold flatStart
  rw [List.take_succ, hx]
  simp

theorem flatSize_split {α : Type} (a : ArrayArray α) (i : Nat) :
    flatSize a = flatStart a i + ((a.drop i).map arraySize).sum := by
  unfold flatSize flatStart
  rw [← List.sum_append, ← List.map_append, List.take_append_drop]

theorem flatStart_le_flatSize {α : Type} (a : ArrayArray α) (i : Nat) :
    flatStart a i ≤ flatSize a := by
  rw [flatSize_split a i]; omega

theorem flatStart_mono {α : Type} (a : ArrayArray α) {i j : Nat} (h : i ≤ j) :
    flatStart a i ≤ flatStart a j := by
  obtain ⟨d, rfl⟩ := Nat.exists_eq_add_of_le h
  unfold flatStart
  rw [List.take_add]
  simp

theorem getElem?_append_cons {β : Type} (done : List β) (x : β) (rest : List β) :
    (done ++ x :: rest)[done.length]? = some x := by
  rw [List.getElem?_append_right (le_refl _)]
  simp

/-! ## The sweep of `init` -/

theorem usub_of_le {a b : Nat} (h : b ≤ a) : usub a b = some (a - b) := by
  simp [usub, h]

theorem store_of_lt (tab : TaskTable) {t : Nat} (v : Nat) (h : t < MAX_TASKS) :
    store tab t v = some (fun u => if u = t then some v else tab u) := by
  simp [store, h]

theorem initWhile_spec {α : Type} (a : ArrayArray α) (T : Nat) (hT : T ≤ MAX_TASKS) (i : Nat)
    (x : Option (List α)) (hx : a[i]? = some x) :
    ∀ (fuel j : Nat) (s : SweepVars), T ≤ s.taskIndex + fuel → SweepInv a T i s →
      s.k = flatStart a i + j → j ≤ arraySize x → s.k ≤ s.k0 →
      ∃ j1 s1, initWhile T (flatSize a) i (arraySize x) fuel j s = some (j1, s1) ∧
        SweepInv a T i s1 ∧ s1.k = flatStart a i + j1 ∧ j1 ≤ arraySize x ∧
        (s1.taskIndex < T → s1.k + (arraySize x - j1) ≤ s1.k0) := by
  intro fuel
  induction fuel with
  | zero =>
    intro j s hf inv hk hj hk0
    have ht : ¬ s.taskIndex < T := by omega
    refine ⟨j, s, ?_, inv, hk, hj, fun h => absurd h ht⟩
    simp [initWhile, ht]
  | succ fuel ih =>
    intro j s hf inv hk hj hk0
    by_cases hc : j < arraySize x ∧ s.k + arraySize x - j ≥ s.k0 ∧ s.taskIndex < T
    · obtain ⟨hjM, hge, ht⟩ := hc
      have hst : s.taskIndex < MAX_TASKS := by omega
      have hinv : SweepInv a T i
          ⟨s.taskIndex + 1, s.k0, (s.taskIndex + 1) * flatSize a / T,
            fun u => if u = s.taskIndex then some i else s.i0 u,
            fun u => if u = s.taskIndex then some (j + (s.k0 - s.k)) else s.j0 u⟩ := by
        refine ⟨by simp, by simpa using ht, rfl, ?_, ?_, ?_⟩
        · intro t htlt
          simp only at htlt
          rcases Nat.lt_succ_iff_lt_or_eq.mp htlt with h | h
          · obtain ⟨ri, rj, h1, h2, h3, hz, h4⟩ := inv.recd t h
            refine ⟨ri, rj, ?_, ?_, h3, hz, ?_⟩
            · simp [Nat.ne_of_lt h, h1]
            · simp [Nat.ne_of_lt h, h2]
            · intro hpos
              obtain ⟨hA, p, hp, hpi⟩ := h4 hpos
              refine ⟨hA, p, ?_, hpi⟩
              have : t - 1 ≠ s.taskIndex := by omega
              simp [this, hp]
          · subst h
            refine ⟨i, j + (s.k0 - s.k), by simp, by simp, ?_, ?_, ?_⟩
            · rw [← inv.k0_eq]; omega
            · intro h0
              have := inv.tpos
              omega
            · intro _
              refine ⟨⟨x, hx, by omega, by omega⟩, ?_⟩
              obtain ⟨p, hp, hpi⟩ := inv.recd_le (s.taskIndex - 1) (by have := inv.tpos; omega)
              refine ⟨p, ?_, hpi⟩
              have : s.taskIndex - 1 ≠ s.taskIndex := by have := inv.tpos; omega
              simp [this, hp]
        · intro t htlt
          simp only at htlt
          rcases Nat.lt_succ_iff_lt_or_eq.mp htlt with h | h
          · obtain ⟨p, hp, hpi⟩ := inv.recd_le t h
            exact ⟨p, by simp [Nat.ne_of_lt h, hp], hpi⟩
          · subst h
            exact ⟨i, by simp, le_refl _⟩
        · intro t htge
          simp only at htge
          have hne : t ≠ s.taskIndex := by omega
          obtain ⟨h1, h2⟩ := inv.fresh t (by omega)
          simp [hne, h1, h2]
      obtain ⟨j1, s1, hrun, hrest⟩ := ih (j + (s.k0 - s.k)) _ (by simp only; omega) hinv
        (by simp only; omega) (by omega)
        (by simp only; rw [inv.k0_eq]; exact bnd_mono _ _ _)
      refine ⟨j1, s1, ?_, hrest⟩
      rw [initWhile, if_pos ⟨hjM, hge, ht⟩]
      simp only [store_of_lt _ _ hst, usub_of_le hk0, Option.bind_eq_bind, Option.some_bind]
      exact hrun
    · refine ⟨j, s, ?_, inv, hk, hj, ?_⟩
      · rw [initWhile, if_neg hc]
      · intro ht
        by_cases hjM : j < arraySize x
        · have : ¬ s.k + arraySize x - j ≥ s.k0 := fun h => hc ⟨hjM, h, ht⟩
          omega
        · omega

theorem SweepInv.finished {α : Type} {a : ArrayArray α} {T i : Nat} {s : SweepVars}
    (inv : SweepInv a T i s) (h : ¬ s.taskIndex < T) :
    s.taskIndex = T ∧ (∀ t, t < T → Recorded a T s.i0 s.j0 t) ∧
      ∀ t, T ≤ t → s.i0 t = none ∧ s.j0 t = none := by
  have e : s.taskIndex = T := le_antisymm inv.tle (not_lt.mp h)
  refine ⟨e, fun t ht => inv.recd t (e ▸ ht), fun t ht => inv.fresh t (e ▸ ht)⟩

theorem initFor_spec {α : Type} (a : ArrayArray α) (T : Nat) (hT : T ≤ MAX_TASKS)
    (hTN : 2 ≤ T → 0 < flatSize a) :
    ∀ (rest done : List (Option (List α))) (s : SweepVars), a = done ++ rest →
      SweepInv a T done.length s → s.k = flatStart a done.length →
      (s.taskIndex < T → s.k ≤ s.k0) →
      ∃ s1, initFor T (flatSize a) rest done.length s = some s1 ∧ s1.taskIndex = T ∧
        (∀ t, t < T → Recorded a T s1.i0 s1.j0 t) ∧
        ∀ t, T ≤ t → s1.i0 t = none ∧ s1.j0 t = none := by
  intro rest
  induction rest with
  | nil =>
    intro done s ha inv hk hk0
    have ht : ¬ s.taskIndex < T := by
      intro ht
      have h1 := hk0 ht
      have h2 : s.k0 < flatSize a := by
        rw [inv.k0_eq]
        exact bnd_lt_size ht (hTN (by have := inv.tpos; omega))
      have h3 : flatStart a done.length = flatSize a := by
        subst ha
        simp [flatStart, flatSize]
      omega
    exact ⟨s, by simp [initFor, ht], inv.finished ht⟩
  | cons x rest ih =>
    intro done s ha inv hk hk0
    by_cases ht : s.taskIndex < T
    · have hx : a[done.length]? = some x := by
        subst ha; exact getElem?_append_cons done x rest
      obtain ⟨j1, s1, hrun, inv1, hk1, hj1, hle1⟩ :=
        initWhile_spec a T hT done.length x hx T 0 s (by omega) inv (by omega) (by omega)
          (hk0 ht)
      have inv2 : SweepInv a T (done ++ [x]).length
          ⟨s1.taskIndex, s1.k + (arraySize x - j1), s1.k0, s1.i0, s1.j0⟩ := by
        refine ⟨inv1.tpos, inv1.tle, inv1.k0_eq, inv1.recd, ?_, inv1.fresh⟩
        intro t htlt
        obtain ⟨p, hp, hpi⟩ := inv1.recd_le t htlt
        exact ⟨p, hp, by simp; omega⟩
      obtain ⟨s2, hrun2, hres⟩ := ih (done ++ [x]) _ (by simp [ha]) inv2
        (by
          simp only [List.length_append, List.length_singleton]
          rw [flatStart_succ a _ x hx]; omega)
        hle1
      refine ⟨s2, ?_, hres⟩
      rw [initFor, if_pos ht]
      simp only [hrun, usub_of_le hj1, Option.bind_eq_bind, Option.some_bind]
      simpa using hrun2
    · exact ⟨s, by simp [initFor, ht], inv.finished ht⟩

theorem init_spec {α : Type} (a : ArrayArray α) (m th : Nat) (hm : 1 ≤ m) :
    ∃ st, ParallelForForState.init a m th = some st ∧ st.N = flatSize a ∧
      st.taskCount = taskCountOf (flatSize a) m th ∧
      (∀ t, t < st.taskCount → Recorded a st.taskCount st.i0 st.j0 t) ∧
      ∀ t, st.taskCount ≤ t → st.i0 t = none ∧ st.j0 t = none := by
  have hN : a.foldl (fun n x => n + arraySize x) 0 = flatSize a := by
    rw [foldl_arraySize]; simp [flatSize]
  have hT := taskCountOf_le_max (flatSize a) m th
  have hT1 := taskCountOf_pos (flatSize a) m th
  have hTN : 2 ≤ taskCountOf (flatSize a) m th → 0 < flatSize a := fun h =>
    lt_of_lt_of_le (by omega) (taskCountOf_le_size (flatSize a) m th hm h)
  have inv0 : SweepInv a (taskCountOf (flatSize a) m th) ([] : List (Option (List α))).length
      ⟨1, 0, 1 * flatSize a / taskCountOf (flatSize a) m th,
        fun u => if u = 0 then some 0 else none, fun u => if u = 0 then some 0 else none⟩ := by
    refine ⟨le_refl _, hT1, rfl, ?_, ?_, ?_⟩
    · intro t ht
      have : t = 0 := by simpa using ht
      subst this
      exact ⟨0, 0, by simp, by simp, by simp [flatStart], fun _ => ⟨rfl, rfl⟩,
        fun h => absurd h (lt_irrefl _)⟩
    · intro t ht
      have : t = 0 := by simpa using ht
      subst this
      exact ⟨0, by simp, le_refl _⟩
    · intro t ht
      have : t ≠ 0 := by simp only at ht; omega
      simp [this]
  obtain ⟨s1, hrun, ht1, hrec, hfresh⟩ :=
    initFor_spec a _ hT hTN a [] _ rfl inv0 (by simp [flatStart]) (fun _ => Nat.zero_le _)
  refine ⟨⟨s1.i0, s1.j0, taskCountOf (flatSize a) m th, flatSize a⟩, ?_, rfl, rfl, hrec, hfresh⟩
  have hm0 : m ≠ 0 := by omega
  have hz : (0 : Nat) < MAX_TASKS := by unfold MAX_TASKS; omega
  unfold ParallelForForState.init
  simp only [hN, if_neg hm0, store_of_lt _ _ hz, Option.bind_eq_bind, Option.some_bind]
  simp only [List.length_nil] at hrun
  unfold taskCountOf at hrun
  rw [hrun]
  rfl

/-! ## The walk of a task -/

theorem forForWalk_spec {α : Type} (a : ArrayArray α) (k1 : Nat) (hk1 : k1 ≤ flatSize a) :
    ∀ (rest done : List (Option (List α))) (j0 k : Nat), a = done ++ rest →
      (k < k1 → k = flatStart a done.length + j0 ∧
        ∀ x rest1, rest = x :: rest1 → j0 ≤ arraySize x) →
      ∃ calls, forForWalk k1 rest done.length j0 k = some calls ∧
        calls.flatMap (KernelCall.visits a) = List.range' k (k1 - k) ∧
        (∀ c ∈ calls, GoodCall a c ∧ done.length ≤ c.i ∧ k ≤ c.k) ∧
        calls.Pairwise (fun c d => c.i < d.i ∧ c.k < d.k) := by
  intro rest
  induction rest with
  | nil =>
    intro done j0 k ha hinv
    have hk : ¬ k < k1 := by
      intro hk
      have h1 := (hinv hk).1
      have h3 : flatStart a done.length = flatSize a := by
        subst ha
        simp [flatStart, flatSize]
      omega
    refine ⟨[], by simp [forForWalk, hk], ?_, by simp, List.Pairwise.nil⟩
    have : k1 - k = 0 := by omega
    simp [this]
  | cons x rest ih =>
    intro done j0 k ha hinv
    by_cases hk : k < k1
    · obtain ⟨hkeq, hj0⟩ := hinv hk
      have hj : j0 ≤ arraySize x := hj0 x rest rfl
      have hx : a[done.length]? = some x := by
        subst ha; exact getElem?_append_cons done x rest
      have hr : j0 ≤ min (arraySize x) (j0 + k1 - k) := by
        apply le_min hj; omega
      obtain ⟨calls, hrun, hvis, hgood, hpw⟩ := ih (done ++ [x]) 0
        (k + (min (arraySize x) (j0 + k1 - k) - j0)) (by simp [ha])
        (by
          intro hlt
          have hmin : min (arraySize x) (j0 + k1 - k) = arraySize x := by
            rcases min_choice (arraySize x) (j0 + k1 - k) with h | h
            · exact h
            · omega
          refine ⟨?_, fun _ _ _ => Nat.zero_le _⟩
          simp only [List.length_append, List.length_singleton]
          rw [flatStart_succ a _ x hx, hmin]; omega)
      simp only [List.length_append, List.length_singleton] at hrun hgood
      have hstep : forForWalk k1 (x :: rest) done.length j0 k =
          some (if min (arraySize x) (j0 + k1 - k) > j0 then
            ⟨done.length, x, j0, min (arraySize x) (j0 + k1 - k), k⟩ :: calls else calls) := by
        rw [forForWalk, if_pos hk]
        simp only [usub_of_le hr, hrun, Option.bind_eq_bind, Option.some_bind]
      refine ⟨_, hstep, ?_⟩
      have hd : min (arraySize x) (j0 + k1 - k) - j0 ≤ k1 - k := by
        have := min_le_right (arraySize x) (j0 + k1 - k); omega
      by_cases hgt : min (arraySize x) (j0 + k1 - k) > j0
      · rw [if_pos hgt]
        refine ⟨?_, ?_, ?_⟩
        · rw [List.flatMap_cons, hvis]
          simp only [KernelCall.visits]
          rw [List.map_add_range', ← hkeq, List.range'_append_1]
          congr 1; omega
        · intro c hc
          rcases List.mem_cons.mp hc with h | h
          · subst h
            refine ⟨⟨hx, ?_, hgt, min_le_left _ _, hkeq⟩, le_refl _, le_refl _⟩
            cases x with
            | none =>
              have : min (arraySize (none : Option (List α))) (j0 + k1 - k) = 0 := by
                simp [arraySize]
              omega
            | some xs => exact ⟨xs, rfl⟩
          · obtain ⟨g, hi, hkk⟩ := hgood c h
            exact ⟨g, by omega, by omega⟩
        · rw [List.pairwise_cons]
          refine ⟨?_, hpw⟩
          intro d hdm
          obtain ⟨_, hi, hkk⟩ := hgood d hdm
          simp only
          constructor <;> omega
      · rw [if_neg hgt]
        have hz : min (arraySize x) (j0 + k1 - k) - j0 = 0 := by omega
        rw [hz] at hvis hgood
        refine ⟨by simpa using hvis, ?_, hpw⟩
        intro c hc
        obtain ⟨g, hi, hkk⟩ := hgood c hc
        exact ⟨g, by omega, by omega⟩
    · refine ⟨[], by simp [forForWalk, hk], ?_, by simp, List.Pairwise.nil⟩
      have : k1 - k = 0 := by omega
      simp [this]

theorem forForTask_spec {α : Type} (a : ArrayArray α) (st : ParallelForForState)
    (hN : st.N = flatSize a) (t : Nat) (ht : t < st.taskCount)
    (hrec : Recorded a st.taskCount st.i0 st.j0 t) :
    ∃ calls, forForTask a st t = some calls ∧
      calls.flatMap (KernelCall.visits a) =
        List.range' (t * flatSize a / st.taskCount)
          ((t + 1) * flatSize a / st.taskCount - t * flatSize a / st.taskCount) ∧
      (∀ c ∈ calls, GoodCall a c) ∧
      calls.Pairwise (fun c d => c.i < d.i ∧ c.k < d.k) := by
  obtain ⟨i, j, hi, hj, hpos, hzero, hrest⟩ := hrec
  have hk1 : (t + 1) * flatSize a / st.taskCount ≤ flatSize a := by
    calc (t + 1) * flatSize a / st.taskCount
        ≤ st.taskCount * flatSize a / st.taskCount := bnd_mono_le _ _ (by omega)
      _ = flatSize a := bnd_last (by omega)
  have hil : i ≤ a.length := by
    rcases Nat.eq_zero_or_pos t with h0 | h0
    · rw [(hzero h0).1]; exact Nat.zero_le _
    · obtain ⟨⟨x, hx, _, _⟩, _⟩ := hrest h0
      have := (List.getElem?_eq_some_iff.mp hx).1
      omega
  have hlen : (a.take i).length = i := by simp [hil]
  obtain ⟨calls, hrun, hvis, hgood, hpw⟩ :=
    forForWalk_spec a _ hk1 (a.drop i) (a.take i) j (t * flatSize a / st.taskCount)
      (List.take_append_drop i a).symm
      (by
        intro _
        rw [hlen]
        refine ⟨hpos.symm, ?_⟩
        intro x rest1 hdrop
        rcases Nat.eq_zero_or_pos t with h0 | h0
        · rw [(hzero h0).2]; exact Nat.zero_le _
        · obtain ⟨⟨y, hy, hjy, _⟩, _⟩ := hrest h0
          have h1 : (a.drop i)[0]? = a[i + 0]? := List.getElem?_drop a i 0
          rw [hdrop] at h1
          simp only [List.getElem?_cons_zero, Nat.add_zero, hy] at h1
          cases h1
          exact hjy)
  rw [hlen] at hrun
  refine ⟨calls, ?_, hvis, fun c hc => (hgood c hc).1, hpw⟩
  unfold forForTask ParallelForForState.size
  simp only [hi, hj, hN, Nat.add_zero, Option.bind_eq_bind, Option.some_bind]
  exact hrun

theorem parallel_for_ind {β : Type} (task : Nat → Option β) (Q : Nat → List β → Prop)
    (T : Nat) (h0 : Q 0 [])
    (hstep : ∀ n rs, n < T → rs.length = n → Q n rs →
      ∃ r, task n = some r ∧ Q (n + 1) (rs ++ [r])) :
    ∀ n, n ≤ T → ∃ rs, parallel_for task n = some rs ∧ rs.length = n ∧ Q n rs := by
  intro n
  induction n with
  | zero => exact fun _ => ⟨[], rfl, rfl, h0⟩
  | succ n ih =>
    intro hn
    obtain ⟨rs, hrun, hlen, hQ⟩ := ih (by omega)
    obtain ⟨r, hr, hQ1⟩ := hstep n rs (by omega) hlen hQ
    refine ⟨rs ++ [r], ?_, by simp [hlen], hQ1⟩
    simp only [parallel_for, hrun, hr, Option.bind_eq_bind, Option.some_bind]

theorem reduceWalk_eq {α V : Type} (func : Option (List α) → Nat → Nat → Nat → V) (k1 : Nat) :
    ∀ (rest : List (Option (List α))) (i j0 k : Nat) (temp : V),
      reduceWalk func k1 rest i j0 k temp =
        (forForWalk k1 rest i j0 k).map (fun calls => (calls, slotAfter func temp calls)) := by
  intro rest
  induction rest with
  | nil =>
    intro i j0 k temp
    by_cases hk : k < k1 <;> simp [reduceWalk, forForWalk, hk, slotAfter]
  | cons x rest ih =>
    intro i j0 k temp
    by_cases hk : k < k1
    · rw [reduceWalk, forForWalk, if_pos hk, if_pos hk]
      cases hu : usub (min (arraySize x) (j0 + k1 - k)) j0 with
      | none => simp [hu]
      | some d =>
        simp only [hu, Option.bind_eq_bind, Option.some_bind]
        by_cases hgt : min (arraySize x) (j0 + k1 - k) > j0
        · rw [if_pos hgt, ih]
          cases forForWalk k1 rest (i + 1) 0 (k + d) with
          | none => simp
          | some calls => simp [hgt, slotAfter]
        · rw [if_neg hgt, ih]
          cases forForWalk k1 rest (i + 1) 0 (k + d) with
          | none => simp
          | some calls => simp [hgt]
    · simp [reduceWalk, forForWalk, hk, slotAfter]

theorem reduceTask_eq {α V : Type} (func : Option (List α) → Nat → Nat → Nat → V)
    (a : ArrayArray α) (st : ParallelForForState) (temp : V) (t : Nat) :
    reduceTask func a st temp t =
      (forForTask a st t).map (fun calls => (calls, slotAfter func temp calls)) := by
  unfold reduceTask forForTask
  cases st.i0 t with
  | none => simp
  | some i =>
    cases st.j0 t with
    | none => simp
    | some j => simp [reduceWalk_eq]

theorem count_range_eq (N x : Nat) : (List.range N).count x = if x < N then 1 else 0 := by
  by_cases h : x < N
  · rw [if_pos h]
    exact List.count_eq_one_of_mem (List.nodup_range N) (List.mem_range.mpr h)
  · rw [if_neg h]
    exact List.count_eq_zero_of_not_mem (fun hm => h (List.mem_range.mp hm))

theorem range'_glue (b0 b1 : Nat) (h : b0 ≤ b1) :
    List.range' 0 b0 ++ List.range' b0 (b1 - b0) = List.range' 0 b1 := by
  have e := List.range'_append_1 0 b0 (b1 - b0)
  rw [Nat.zero_add] at e
  rw [e]
  congr 1; omega

/-- C1: for every ragged sequence, every `minStepSize ≥ 1` and every thread count, the kernel calls
made by `parallel_for_for` over all tasks `t < taskCount`, taken in task order, visit the
flattened indices `0, 1, ..., N-1`; hence every flattened index in `[0, N)` is visited exactly
once and no other index is visited. -/
theorem parallel_for_for_visits_each_index_once {α : Type} (array2 : ArrayArray α)
    (minStepSize numThreads : Nat) (hstep : 1 ≤ minStepSize) :
    ∃ st tasks, ParallelForForState.init array2 minStepSize numThreads = some st ∧
      parallel_for_for array2 minStepSize numThreads = some tasks ∧
      tasks.length = st.taskCount ∧
      tasks.flatMap (fun calls => calls.flatMap (KernelCall.visits array2)) =
        List.range (flatSize array2) ∧
      ∀ x, (tasks.flatMap (fun calls => calls.flatMap (KernelCall.visits array2))).count x =
        if x < flatSize array2 then 1 else 0 := by
  obtain ⟨st, hinit, hN, hT, hrec, _⟩ := init_spec array2 minStepSize numThreads hstep
  have hT1 : 1 ≤ st.taskCount := hT ▸ taskCountOf_pos _ _ _
  obtain ⟨tasks, hrun, hlen, hQ⟩ := parallel_for_ind (forForTask array2 st)
    (fun n rs => rs.flatMap (fun calls => calls.flatMap (KernelCall.visits array2)) =
      List.range' 0 (n * flatSize array2 / st.taskCount)) st.taskCount (by simp)
    (by
      intro n rs hn _ hQ
      obtain ⟨calls, hc, hvis, _, _⟩ := forForTask_spec array2 st hN n hn (hrec n hn)
      refine ⟨calls, hc, ?_⟩
      show (rs ++ [calls]).flatMap (fun calls => calls.flatMap (KernelCall.visits array2)) = _
      rw [List.flatMap_append, hQ, List.flatMap_cons, List.flatMap_nil, List.append_nil, hvis]
      exact range'_glue _ _ (bnd_mono _ _ _))
    st.taskCount le_rfl
  have hall : tasks.flatMap (fun calls => calls.flatMap (KernelCall.visits array2)) =
      List.range (flatSize array2) := by
    rw [hQ, bnd_last (by omega), List.range_eq_range']
  refine ⟨st, tasks, hinit, ?_, hlen, hall, ?_⟩
  · unfold parallel_for_for
    simp only [hinit, Option.bind_eq_bind, Option.some_bind]
    exact hrun
  · intro x
    rw [hall]
    exact count_range_eq _ _

/-- Instance of the coverage property at scenario S1. -/
theorem parallel_for_for_visits_each_index_once_witness :
    1 ≤ 1 ∧
    ∃ st tasks, ParallelForForState.init scenarioS1 1 4 = some st ∧
      parallel_for_for scenarioS1 1 4 = some tasks ∧
      tasks.length = st.taskCount ∧
      tasks.flatMap (fun calls => calls.flatMap (KernelCall.visits scenarioS1)) =
        List.range (flatSize scenarioS1) ∧
      ∀ x, (tasks.flatMap (fun calls => calls.flatMap (KernelCall.visits scenarioS1))).count x =
        if x < flatSize scenarioS1 then 1 else 0 :=
  ⟨by decide, parallel_for_for_visits_each_index_once scenarioS1 1 4 (by decide)⟩

/-- C2 (as worded, refuted): in 64-bit arithmetic, for one sub-array of `2^63` elements,
`minStepSize = 1` and 3 threads, `init` yields `N = 2^63`, `taskCount = 3` and the start
coordinate `(0, 0)` for task 2, whose flattened position 0 is not `⌊2*N/3⌋`, because `2*N`
wraps to 0; likewise for one sub-array of `2^60` elements and 32 threads task 16 starts at
`(0, 0)` and not at `⌊16*N/32⌋ = 2^59`. -/
theorem init_start_coordinates_wrap :
    ((Word64.init [some (2 ^ 63)] 1 3).map
        (fun st => (st.N, st.taskCount, st.i0 2, st.j0 2)) =
      some (2 ^ 63, 3, some 0, some 0) ∧
      0 + 0 ≠ 2 * 2 ^ 63 / 3) ∧
    ((Word64.init [some (2 ^ 60)] 1 32).map
        (fun st => (st.N, st.taskCount, st.i0 16, st.j0 16)) =
      some (2 ^ 60, 32, some 0, some 0) ∧
      0 + 0 ≠ 16 * 2 ^ 60 / 32) := by
  refine ⟨⟨?_, ?_⟩, ?_, ?_⟩ <;> decide

/-- C2 (amended): with sizes as unbounded naturals, for every ragged sequence, every
`minStepSize ≥ 1` and every thread count, `init` succeeds
and the start coordinate `(i0[t], j0[t])` of every task `t < taskCount` has the flattened
position `⌊t*N/taskCount⌋`; when `N > 0`, `i0[t]` is an index of `array2` and `j0[t]` is at
most the size of `array2[i0[t]]`. -/
theorem init_start_coordinates {α : Type} (array2 : ArrayArray α)
    (minStepSize numThreads : Nat) (hstep : 1 ≤ minStepSize) :
    ∃ st, ParallelForForState.init array2 minStepSize numThreads = some st ∧
      st.N = flatSize array2 ∧
      ∀ t, t < st.taskCount → ∃ i j, st.i0 t = some i ∧ st.j0 t = some j ∧
        flatStart array2 i + j = t * flatSize array2 / st.taskCount ∧
        (0 < flatSize array2 → ∃ x, array2[i]? = some x ∧ j ≤ arraySize x) := by
  obtain ⟨st, hinit, hN, _, hrec, _⟩ := init_spec array2 minStepSize numThreads hstep
  refine ⟨st, hinit, hN, ?_⟩
  intro t ht
  obtain ⟨i, j, hi, hj, hpos, hzero, hrest⟩ := hrec t ht
  refine ⟨i, j, hi, hj, hpos, ?_⟩
  intro hsize
  rcases Nat.eq_zero_or_pos t with h0 | h0
  · obtain ⟨rfl, rfl⟩ := hzero h0
    cases array2 with
    | nil => simp [flatSize] at hsize
    | cons x rest => exact ⟨x, List.getElem?_cons_zero, Nat.zero_le _⟩
  · obtain ⟨⟨x, hx, hjx, _⟩, _⟩ := hrest h0
    exact ⟨x, hx, hjx⟩

/-- Instance of the start-coordinate property at scenario S1. -/
theorem init_start_coordinates_witness :
    1 ≤ 1 ∧
    ∃ st, ParallelForForState.init scenarioS1 1 4 = some st ∧
      st.N = flatSize scenarioS1 ∧
      ∀ t, t < st.taskCount → ∃ i j, st.i0 t = some i ∧ st.j0 t = some j ∧
        flatStart scenarioS1 i + j = t * flatSize scenarioS1 / st.taskCount ∧
        (0 < flatSize scenarioS1 → ∃ x, scenarioS1[i]? = some x ∧ j ≤ arraySize x) :=
  ⟨by decide, init_start_coordinates scenarioS1 1 4 (by decide)⟩

theorem slotAfter_concat {α V : Type} (func : Option (List α) → Nat → Nat → Nat → V)
    (temp : V) (calls : List (KernelCall α)) (c : KernelCall α) :
    slotAfter func temp (calls ++ [c]) = c.result func := by
  simp [slotAfter, KernelCall.result]

theorem exists_getLast_of_ne_nil {β : Type} (l : List β) (h : l ≠ []) :
    ∃ l1 c, l = l1 ++ [c] ∧ l.getLast? = some c := by
  rcases List.eq_nil_or_concat l with h1 | ⟨l1, c, h1⟩
  · exact absurd h1 h
  · rw [List.concat_eq_append] at h1
    exact ⟨l1, c, h1, by simp [h1]⟩

/-- The calls of the tasks of `parallel_for_for_reduce` are those of `parallel_for_for`, and
the scratch slot of each task ends as `slotAfter` says. -/
theorem reduce_tasks_spec {α V : Type} (func : Option (List α) → Nat → Nat → Nat → V)
    (temp0 : Nat → V) (a : ArrayArray α) (st : ParallelForForState) (hN : st.N = flatSize a)
    (hrec : ∀ t, t < st.taskCount → Recorded a st.taskCount st.i0 st.j0 t) :
    ∃ rs, parallel_for (fun t => reduceTask func a st (temp0 t) t) st.taskCount = some rs ∧
      rs.length = st.taskCount ∧
      parallel_for (forForTask a st) st.taskCount = some (rs.map Prod.fst) ∧
      ∀ t r, rs[t]? = some r →
        r.2 = slotAfter func (temp0 t) r.1 ∧
        r.1.flatMap (KernelCall.visits a) =
          List.range' (t * flatSize a / st.taskCount)
            ((t + 1) * flatSize a / st.taskCount - t * flatSize a / st.taskCount) ∧
        (∀ c ∈ r.1, GoodCall a c) ∧
        r.1.Pairwise (fun c d => c.i < d.i ∧ c.k < d.k) := by
  obtain ⟨rs, hrun, hlen, hQ1, hQ2⟩ := parallel_for_ind
    (fun t => reduceTask func a st (temp0 t) t)
    (fun n rs => parallel_for (forForTask a st) n = some (rs.map Prod.fst) ∧
      ∀ t r, rs[t]? = some r →
        r.2 = slotAfter func (temp0 t) r.1 ∧
        r.1.flatMap (KernelCall.visits a) =
          List.range' (t * flatSize a / st.taskCount)
            ((t + 1) * flatSize a / st.taskCount - t * flatSize a / st.taskCount) ∧
        (∀ c ∈ r.1, GoodCall a c) ∧
        r.1.Pairwise (fun c d => c.i < d.i ∧ c.k < d.k))
    st.taskCount ⟨rfl, by simp⟩
    (by
      intro n rs hn hlen hQ
      obtain ⟨calls, hc, hvis, hgood, hpw⟩ := forForTask_spec a st hN n hn (hrec n hn)
      refine ⟨(calls, slotAfter func (temp0 n) calls), ?_, ?_, ?_⟩
      · show reduceTask func a st (temp0 n) n = _
        rw [reduceTask_eq, hc]; rfl
      · simp only [parallel_for, hQ.1, hc, Option.bind_eq_bind, Option.some_bind,
          List.map_append, List.map_cons, List.map_nil]
      · intro t r htr
        rcases Nat.lt_or_ge t rs.length with hlt | hge
        · rw [List.getElem?_append_left hlt] at htr
          exact hQ.2 t r htr
        · rw [List.getElem?_append_right hge] at htr
          have ht0 : t - rs.length = 0 := by
            by_contra hne
            obtain ⟨m, hm⟩ := Nat.exists_eq_succ_of_ne_zero hne
            rw [hm] at htr
            simp at htr
          rw [ht0] at htr
          simp only [List.getElem?_cons_zero, Option.some.injEq] at htr
          have htn : t = n := by omega
          subst htr
          subst htn
          exact ⟨rfl, hvis, hgood, hpw⟩)
    st.taskCount le_rfl
  exact ⟨rs, hrun, hlen, hQ1, hQ2⟩

/-- C3 (as worded, refuted): in 64-bit arithmetic, for sub-arrays of 1, `2^64 - 1` and 4
elements, `minStepSize = 1` and 2 threads, the sum `N` wraps to 4 and task 1 of
`parallel_for_for` (and of `parallel_for_for_reduce`) calls the kernel with
`(A_2, [2,4), k = 2)`, although the flattened index of `r0 = 2` in `A_2` is
`1 + (2^64 - 1) + 2`.  For sub-arrays of `2^60` and `7*2^60` elements and 4 threads the
product `2*N` wraps, the start of task 2 is recorded as `j0 = 2^64 - 2^60`, and the sweep of
`init` enters its body with the cursor at `i = 2 = array2.size()`, so neither driver gets to
make its kernel calls; the same happens for `2^58` and `2^60 - 2^58` elements and 32
threads. -/
theorem kernel_calls_wrap :
    (Word64.parallel_for_for [some 1, some (2 ^ 64 - 1), some 4] 1 2 =
        some [[⟨0, some 1, 0, 1, 0⟩, ⟨1, some (2 ^ 64 - 1), 0, 1, 1⟩], [⟨2, some 4, 2, 4, 2⟩]] ∧
      (Word64.parallel_for_for_reduce (fun _ => 0) [some 1, some (2 ^ 64 - 1), some 4] 1 2 0
        (fun _ r0 r1 _ => r1 - r0) (fun x y => x + y)).map Prod.fst =
        some [[⟨0, some 1, 0, 1, 0⟩, ⟨1, some (2 ^ 64 - 1), 0, 1, 1⟩], [⟨2, some 4, 2, 4, 2⟩]] ∧
      (2 : Nat) ≠ 1 + (2 ^ 64 - 1) + 2) ∧
    ((Word64.init [some (2 ^ 60), some (7 * 2 ^ 60)] 1 4).isSome = false ∧
      Word64.parallel_for_for [some (2 ^ 60), some (7 * 2 ^ 60)] 1 4 = none ∧
      Word64.parallel_for_for_reduce (fun _ => 0) [some (2 ^ 60), some (7 * 2 ^ 60)] 1 4 0
        (fun _ r0 r1 _ => r1 - r0) (fun x y => x + y) = none) ∧
    ((Word64.init [some (2 ^ 58), some (2 ^ 60 - 2 ^ 58)] 1 32).isSome = false ∧
      Word64.parallel_for_for [some (2 ^ 58), some (2 ^ 60 - 2 ^ 58)] 1 32 = none ∧
      Word64.parallel_for_for_reduce (fun _ => 0) [some (2 ^ 58), some (2 ^ 60 - 2 ^ 58)] 1 32 0
        (fun _ r0 r1 _ => r1 - r0) (fun x y => x + y) = none) := by
  refine ⟨⟨?_, ?_, ?_⟩, ⟨?_, ?_, ?_⟩, ?_, ?_, ?_⟩ <;> decide

/-- C3 (amended): with sizes as unbounded naturals, for every ragged sequence, every
`minStepSize ≥ 1` and every thread count, the tasks of
`parallel_for_for_reduce` make the same kernel calls as the tasks of `parallel_for_for`, and
every such call `func(A_i, [r0,r1), k)` passes the sub-array `array2[i]`, which is present,
with `r0 < r1 ≤ n_i` and `k = (n_0 + ... + n_{i-1}) + r0`; within one task the calls have
strictly increasing `i` (and strictly increasing `k`). -/
theorem kernel_calls_well_formed {α V : Type} (array2 : ArrayArray α)
    (minStepSize numThreads : Nat) (hstep : 1 ≤ minStepSize) (temp0 : Nat → V) (identity : V)
    (func : Option (List α) → Nat → Nat → Nat → V) (reduction : V → V → V) :
    ∃ tasks value, parallel_for_for array2 minStepSize numThreads = some tasks ∧
      parallel_for_for_reduce temp0 array2 minStepSize numThreads identity func reduction =
        some (tasks, value) ∧
      ∀ calls ∈ tasks,
        (∀ c ∈ calls, ∃ xs, array2[c.i]? = some (some xs) ∧ c.array = some xs ∧
          c.r0 < c.r1 ∧ c.r1 ≤ xs.length ∧ c.k = flatStart array2 c.i + c.r0) ∧
        calls.Pairwise (fun c d => c.i < d.i ∧ c.k < d.k) := by
  obtain ⟨st, hinit, hN, _, hrec, _⟩ := init_spec array2 minStepSize numThreads hstep
  obtain ⟨rs, hrun, _, hfor, hQ⟩ := reduce_tasks_spec func temp0 array2 st hN hrec
  refine ⟨rs.map Prod.fst, (rs.map Prod.snd).foldl reduction identity, ?_, ?_, ?_⟩
  · unfold parallel_for_for
    simp only [hinit, Option.bind_eq_bind, Option.some_bind]
    exact hfor
  · unfold parallel_for_for_reduce
    simp only [hinit, hrun, Option.bind_eq_bind, Option.some_bind]
  · intro calls hcalls
    obtain ⟨r, hr, rfl⟩ := List.mem_map.mp hcalls
    obtain ⟨t, htr⟩ := List.mem_iff_getElem?.mp hr
    obtain ⟨_, _, hgood, hpw⟩ := hQ t r htr
    refine ⟨?_, hpw⟩
    intro c hc
    obtain ⟨hentry, ⟨xs, hxs⟩, hne, hin, hbase⟩ := hgood c hc
    refine ⟨xs, by rw [hentry, hxs], hxs, hne, ?_, hbase⟩
    rw [hxs] at hin
    exact hin

/-- Instance of the well-formedness of kernel calls at scenario S1, for the kernel that returns
the length of its sub-range. -/
theorem kernel_calls_well_formed_witness :
    1 ≤ 1 ∧
    ∃ tasks value, parallel_for_for scenarioS1 1 4 = some tasks ∧
      parallel_for_for_reduce (fun _ => 0) scenarioS1 1 4 0 (fun _ r0 r1 _ => r1 - r0)
        (fun x y => x + y) = some (tasks, value) ∧
      ∀ calls ∈ tasks,
        (∀ c ∈ calls, ∃ xs, scenarioS1[c.i]? = some (some xs) ∧ c.array = some xs ∧
          c.r0 < c.r1 ∧ c.r1 ≤ xs.length ∧ c.k = flatStart scenarioS1 c.i + c.r0) ∧
        calls.Pairwise (fun c d => c.i < d.i ∧ c.k < d.k) :=
  ⟨by decide, kernel_calls_well_formed scenarioS1 1 4 (by decide) (fun _ => 0) 0
    (fun _ r0 r1 _ => r1 - r0) (fun x y => x + y)⟩

theorem lasts_exist {β γ : Type} (g : β → γ) (rs : List (List β × γ))
    (h : ∀ r ∈ rs, ∃ c, r.1.getLast? = some c ∧ r.2 = g c) :
    ∃ lasts : List β, (rs.map Prod.fst).map List.getLast? = lasts.map some ∧
      rs.map Prod.snd = lasts.map g := by
  induction rs with
  | nil => exact ⟨[], rfl, rfl⟩
  | cons r rs ih =>
    obtain ⟨lasts, h1, h2⟩ := ih (fun r1 hr1 => h r1 (List.mem_cons_of_mem _ hr1))
    obtain ⟨c, hc1, hc2⟩ := h r (List.mem_cons_self _ _)
    exact ⟨c :: lasts, by simp [hc1, h1], by simp [hc2, h2]⟩

/-- C4 (as worded, refuted): in 64-bit arithmetic, for one sub-array of `2^63` elements
(`N > 0`), `minStepSize = 1` and 3 threads, task 1 of `parallel_for_for_reduce` gets the range
end `k1 = 0` (`2*N` wraps) and makes no kernel call, and the value returned folds the
never-written slot `temp[1]`: with identity 0, a kernel returning 1, addition, and slots
holding 100, the result is 102; likewise for `2^60` elements and 32 threads tasks 15 and 31
make no call and the result is 230. -/
theorem reduce_wrap :
    Word64.parallel_for_for_reduce (fun _ => 100) [some (2 ^ 63)] 1 3 0 (fun _ _ _ _ => 1)
        (fun x y => x + y) =
      some ([[⟨0, some (2 ^ 63), 0, 2 ^ 63 / 3, 0⟩], [], [⟨0, some (2 ^ 63), 0, 2 ^ 63 / 3, 0⟩]],
        102) ∧
    (Word64.parallel_for_for_reduce (fun _ => 100) [some (2 ^ 60)] 1 32 0 (fun _ _ _ _ => 1)
        (fun x y => x + y)).map (fun r => (r.1.map List.length, r.2)) =
      some ([1, 1, 1, 1, 1, 1, 1, 1, 1, 1, 1, 1, 1, 1, 1, 0,
        1, 1, 1, 1, 1, 1, 1, 1, 1, 1, 1, 1, 1, 1, 1, 0], 230) := by
  constructor <;> decide

/-- C4 (amended): with sizes as unbounded naturals, for every ragged sequence with `N > 0`,
every `minStepSize ≥ 1` and every thread
count, every task of `parallel_for_for_reduce` makes at least one kernel call, its calls have
strictly increasing flattened base index `k`, and the value returned is
`reduction(...reduction(reduction(identity, x_0), x_1)..., x_{T-1})` with `T = taskCount`,
where `x_t` is the value the kernel returned for the last call of task `t`; the initial
content `temp0` of the scratch array does not matter. -/
theorem reduce_folds_last_results {α V : Type} (array2 : ArrayArray α)
    (minStepSize numThreads : Nat) (hstep : 1 ≤ minStepSize) (hsize : 0 < flatSize array2)
    (temp0 : Nat → V) (identity : V) (func : Option (List α) → Nat → Nat → Nat → V)
    (reduction : V → V → V) :
    ∃ (st : ParallelForForState) (tasks : List (List (KernelCall α)))
        (lasts : List (KernelCall α)),
      ParallelForForState.init array2 minStepSize numThreads = some st ∧
      tasks.length = st.taskCount ∧
      tasks.map List.getLast? = lasts.map some ∧
      (∀ calls ∈ tasks, calls.Pairwise (fun c d => c.k < d.k)) ∧
      parallel_for_for_reduce temp0 array2 minStepSize numThreads identity func reduction =
        some (tasks, (lasts.map (KernelCall.result func)).foldl reduction identity) := by
  obtain ⟨st, hinit, hN, hT, hrec, _⟩ := init_spec array2 minStepSize numThreads hstep
  have hT1 : 1 ≤ st.taskCount := hT ▸ taskCountOf_pos _ _ _
  have hTN : st.taskCount ≤ flatSize array2 :=
    hT ▸ taskCountOf_le_size_of_pos _ _ _ hstep hsize
  obtain ⟨rs, hrun, hlen, _, hQ⟩ := reduce_tasks_spec func temp0 array2 st hN hrec
  obtain ⟨lasts, hl1, hl2⟩ := lasts_exist (KernelCall.result func) rs (by
    intro r hr
    obtain ⟨t, htr⟩ := List.mem_iff_getElem?.mp hr
    obtain ⟨hslot, hvis, _, _⟩ := hQ t r htr
    have hne : r.1 ≠ [] := by
      intro hnil
      rw [hnil, List.flatMap_nil] at hvis
      have hlt := bnd_strict t (by omega : 0 < st.taskCount) hTN
      have h0 := congrArg List.length hvis
      simp only [List.length_nil, List.length_range'] at h0
      omega
    obtain ⟨l1, c, hr1, hlast⟩ := exists_getLast_of_ne_nil r.1 hne
    refine ⟨c, hlast, ?_⟩
    rw [hslot, hr1, slotAfter_concat])
  refine ⟨st, rs.map Prod.fst, lasts, hinit, by simp [hlen], hl1, ?_, ?_⟩
  · intro calls hcalls
    obtain ⟨r, hr, rfl⟩ := List.mem_map.mp hcalls
    obtain ⟨t, htr⟩ := List.mem_iff_getElem?.mp hr
    obtain ⟨_, _, _, hpw⟩ := hQ t r htr
    exact hpw.imp (fun h => h.2)
  · unfold parallel_for_for_reduce
    simp only [hinit, hrun, hl2, Option.bind_eq_bind, Option.some_bind]

/-- Instance of the fold of the last kernel results at scenario S1. -/
theorem reduce_folds_last_results_witness :
    1 ≤ 1 ∧ 0 < flatSize scenarioS1 ∧
    ∃ (st : ParallelForForState) (tasks : List (List (KernelCall Char)))
        (lasts : List (KernelCall Char)),
      ParallelForForState.init scenarioS1 1 4 = some st ∧
      tasks.length = st.taskCount ∧
      tasks.map List.getLast? = lasts.map some ∧
      (∀ calls ∈ tasks, calls.Pairwise (fun c d => c.k < d.k)) ∧
      parallel_for_for_reduce (fun _ => 0) scenarioS1 1 4 0 (fun _ r0 r1 _ => r1 - r0)
          (fun x y => x + y) =
        some (tasks, (lasts.map (KernelCall.result (fun _ r0 r1 _ => r1 - r0))).foldl
          (fun x y => x + y) 0) :=
  ⟨by decide, by decide, reduce_folds_last_results scenarioS1 1 4 (by decide) (by decide)
    (fun _ => 0) 0 (fun _ r0 r1 _ => r1 - r0) (fun x y => x + y)⟩

/-- C5 (defect): with identity 0, the kernel returning the length `r1 - r0` of its sub-range
and addition as the reduction, `parallel_for_for_reduce` on two sub-arrays of one element
each, `minStepSize = 1` and one thread returns 1 although `N = 2`: the single task makes two
kernel calls and the slot `temp[0]` keeps only the result of the second. -/
theorem reduce_length_sum_two_singletons :
    flatSize [some [0], some [0]] = 2 ∧
    ∀ temp0 : Nat → Nat,
      parallel_for_for_reduce temp0 [some [0], some [0]] 1 1 0 (fun _ r0 r1 _ => r1 - r0)
          (fun x y => x + y) =
        some ([[⟨0, some [0], 0, 1, 0⟩, ⟨1, some [0], 0, 1, 1⟩]], 1) :=
  ⟨by decide, fun _ => rfl⟩

/-- C6 (defect): on the empty sequence (`N = 0`) with `minStepSize = 1` and one thread, the
single task of `parallel_for_for_reduce` makes no kernel call, so the value returned is
`reduction(identity, temp[0])` for the never-written slot `temp[0]`; with identity 0, the
kernel returning 0 and addition, a slot holding 7 makes the result 7, not the identity. -/
theorem reduce_empty_reads_unwritten_slot :
    (∀ (V : Type) (temp0 : Nat → V) (identity : V)
        (func : Option (List Nat) → Nat → Nat → Nat → V) (reduction : V → V → V),
      parallel_for_for_reduce temp0 [] 1 1 identity func reduction =
        some ([[]], reduction identity (temp0 0))) ∧
    parallel_for_for_reduce (fun _ => 7) ([] : ArrayArray Nat) 1 1 0 (fun _ _ _ _ => 0)
        (fun x y => x + y) = some ([[]], 7) :=
  ⟨fun _ _ _ _ _ => rfl, rfl⟩

/-- C8 (as worded, refuted): with three sub-arrays of one element each, `minStepSize = 1` and
three threads, task 2 starts at `(i0, j0) = (1, 1)` with `j0 = n_1` while task 1 starts in
sub-array 0; with sizes 0, 1 and one thread, task 0 starts at `(0, 0)` with `j0 = n_0 = 0` and
has no predecessor.  In 64-bit arithmetic, moreover, with sizes `2^61` and `3*2^61`
(`N = 2^63`), `minStepSize = 1` and 3 threads the product `2*N` wraps and task 2 starts at
`(i0, j0) = (1, 2^64 - 2^61)` with `j0` greater than `n_1 = 3*2^61`, while task 1, which
starts in the same sub-array, does not end at the end of it: in exact arithmetic it ends at
`⌊2*N/3⌋`, in the code at 0, and the sub-array ends at `2^63`. -/
theorem start_invariant_as_worded_fails :
    (¬ ∀ st, ParallelForForState.init [some [0], some [0], some [0]] 1 3 = some st →
      ∀ t, t < st.taskCount →
        StartInvariantAsWorded [some [0], some [0], some [0]] st t) ∧
    (¬ ∀ st, ParallelForForState.init [some [], some [0]] 1 1 = some st →
      ∀ t, t < st.taskCount → StartInvariantAsWorded [some [], some [0]] st t) ∧
    ((Word64.init [some (2 ^ 61), some (3 * 2 ^ 61)] 1 3).map
        (fun st => (st.N, st.taskCount, st.i0 1, st.i0 2, st.j0 2)) =
      some (2 ^ 63, 3, some 1, some 1, some (2 ^ 64 - 2 ^ 61)) ∧
      ¬ 2 ^ 64 - 2 ^ 61 ≤ 3 * 2 ^ 61 ∧
      2 * 2 ^ 63 / 3 ≠ 2 ^ 61 + 3 * 2 ^ 61 ∧
      Word64.mul 2 (2 ^ 63) / 3 ≠ 2 ^ 61 + 3 * 2 ^ 61) := by
  refine ⟨?_, ?_, by decide, by decide, by decide, by decide⟩
  · intro h
    obtain ⟨i, j, hi, hj, hor⟩ := h _ rfl 2 (by decide)
    cases hi
    cases hj
    revert hor
    decide
  · intro h
    obtain ⟨i, j, hi, hj, hor⟩ := h _ rfl 0 (by decide)
    cases hi
    cases hj
    revert hor
    decide

/-- C8 (amended): with sizes as unbounded naturals, after `init` with `minStepSize ≥ 1`,
task 0 starts at `(0, 0)`, and every
task `t` with `1 ≤ t < taskCount` starts in a non-empty sub-array `A_{i0[t]}`, not before the
sub-array in which task `t-1` starts, with `j0[t] < n_{i0[t]}`, or else `j0[t] = n_{i0[t]}`
and task `t-1` ends exactly at the end of `A_{i0[t]}`. -/
theorem start_coordinate_invariant {α : Type} (array2 : ArrayArray α)
    (minStepSize numThreads : Nat) (hstep : 1 ≤ minStepSize) :
    ∃ st, ParallelForForState.init array2 minStepSize numThreads = some st ∧
      st.i0 0 = some 0 ∧ st.j0 0 = some 0 ∧
      ∀ t, 1 ≤ t → t < st.taskCount → ∃ i j p x,
        st.i0 t = some i ∧ st.j0 t = some j ∧ st.i0 (t - 1) = some p ∧ p ≤ i ∧
        array2[i]? = some x ∧ 0 < arraySize x ∧
        (j < arraySize x ∨
          (j = arraySize x ∧ t * st.size / st.taskCount = flatStart array2 (i + 1))) := by
  obtain ⟨st, hinit, hN, hT, hrec, _⟩ := init_spec array2 minStepSize numThreads hstep
  have hT1 : 1 ≤ st.taskCount := hT ▸ taskCountOf_pos _ _ _
  obtain ⟨i, j, hi, hj, _, hzero, _⟩ := hrec 0 (by omega)
  obtain ⟨rfl, rfl⟩ := hzero rfl
  refine ⟨st, hinit, hi, hj, ?_⟩
  intro t ht1 ht
  obtain ⟨i, j, hi, hj, hpos, _, hrest⟩ := hrec t ht
  obtain ⟨⟨x, hx, hjx, hx0⟩, p, hp, hpi⟩ := hrest (by omega)
  refine ⟨i, j, p, x, hi, hj, hp, hpi, hx, hx0, ?_⟩
  rcases Nat.lt_or_ge j (arraySize x) with hlt | hge
  · exact Or.inl hlt
  · refine Or.inr ⟨le_antisymm hjx hge, ?_⟩
    rw [flatStart_succ array2 i x hx]
    unfold ParallelForForState.size
    rw [hN, ← hpos]
    omega

/-- Instance of the start-coordinate invariant at scenario S1. -/
theorem start_coordinate_invariant_witness :
    1 ≤ 1 ∧
    ∃ st, ParallelForForState.init scenarioS1 1 4 = some st ∧
      st.i0 0 = some 0 ∧ st.j0 0 = some 0 ∧
      ∀ t, 1 ≤ t → t < st.taskCount → ∃ i j p x,
        st.i0 t = some i ∧ st.j0 t = some j ∧ st.i0 (t - 1) = some p ∧ p ≤ i ∧
        scenarioS1[i]? = some x ∧ 0 < arraySize x ∧
        (j < arraySize x ∨
          (j = arraySize x ∧ t * st.size / st.taskCount = flatStart scenarioS1 (i + 1))) :=
  ⟨by decide, start_coordinate_invariant scenarioS1 1 4 (by decide)⟩

/-- C9 (as worded, refuted): in scenario S1 the four tasks do not own the flattened ranges
`[0,1), [1,3), [3,5), [5,6)` and do not visit `a; b,c; d,e; f`. -/
theorem scenario_S1_as_worded_fails :
    (ParallelForForState.init scenarioS1 1 4).map
        (fun st => (List.range st.taskCount).map (taskRange st)) ≠
      some [(0, 1), (1, 3), (3, 5), (5, 6)] ∧
    (parallel_for_for scenarioS1 1 4).map
        (fun tasks => tasks.map (fun calls => calls.flatMap KernelCall.elements)) ≠
      some [['a'], ['b', 'c'], ['d', 'e'], ['f']] := by
  constructor <;> decide

/-- C9 (amended): in scenario S1 (sub-array sizes 3, 0, 2, 1, `minStepSize = 1`, 4 threads)
`init` yields `N = 6` and `taskCount = 4`, and the four tasks of `parallel_for_for` own the
flattened ranges `[0,1), [1,3), [3,4), [4,6)`, visiting `a; b,c; d; e,f` respectively. -/
theorem scenario_S1 :
    (ParallelForForState.init scenarioS1 1 4).map
        (fun st => (st.N, st.taskCount, (List.range st.taskCount).map (taskRange st))) =
      some (6, 4, [(0, 1), (1, 3), (3, 4), (4, 6)]) ∧
    (parallel_for_for scenarioS1 1 4).map
        (fun tasks => tasks.map (fun calls => calls.flatMap (KernelCall.visits scenarioS1))) =
      some [[0], [1, 2], [3], [4, 5]] ∧
    (parallel_for_for scenarioS1 1 4).map
        (fun tasks => tasks.map (fun calls => calls.flatMap KernelCall.elements)) =
      some [['a'], ['b', 'c'], ['d'], ['e', 'f']] := by
  refine ⟨?_, ?_, ?_⟩ <;> decide

/-- The sweep of `init` fails exactly when its body is entered with the cursor past the last
entry of `array2`. -/
theorem initFor_nil_eq_none {α : Type} (taskCount N i : Nat) (s : SweepVars) :
    initFor taskCount N ([] : List (Option (List α))) i s = none ↔ s.taskIndex < taskCount := by
  by_cases h : s.taskIndex < taskCount <;> simp [initFor, h]

/-- The walk of a task fails exactly when `k < k1` holds with the cursor past the last entry
of `array2`. -/
theorem forForWalk_nil_eq_none {α : Type} (k1 i j0 k : Nat) :
    forForWalk k1 ([] : List (Option (List α))) i j0 k = none ↔ k < k1 := by
  by_cases h : k < k1 <;> simp [forForWalk, h]

/-- A store into a task table fails exactly when the index is not below `MAX_TASKS`. -/
theorem store_eq_none (tab : TaskTable) (t v : Nat) : store tab t v = none ↔ MAX_TASKS ≤ t := by
  by_cases h : t < MAX_TASKS
  · simp [store, h]
  · simp [store, h]; omega

/-- C10: for every ragged sequence, every `minStepSize ≥ 1` and every thread count, `init`
runs without entering the body of its sweep with the cursor outside `array2` and without a
store outside the tables; `taskCount ≤ MAX_TASKS = 32`; the slots of `i0` and `j0` that were
written are exactly those with index `< taskCount`; and the walk of every task
`t < taskCount` of `parallel_for_for` runs without entering its loop body with the cursor
outside `array2`, every kernel call having `i < array2.size()`. -/
theorem outer_accesses_in_bounds {α : Type} (array2 : ArrayArray α)
    (minStepSize numThreads : Nat) (hstep : 1 ≤ minStepSize) :
    ∃ st, ParallelForForState.init array2 minStepSize numThreads = some st ∧
      st.taskCount ≤ MAX_TASKS ∧ MAX_TASKS = 32 ∧
      (∀ t, (st.i0 t).isSome = true ↔ t < st.taskCount) ∧
      (∀ t, (st.j0 t).isSome = true ↔ t < st.taskCount) ∧
      ∀ t, t < st.taskCount → ∃ calls, forForTask array2 st t = some calls ∧
        ∀ c ∈ calls, c.i < array2.length := by
  obtain ⟨st, hinit, hN, hT, hrec, hfresh⟩ := init_spec array2 minStepSize numThreads hstep
  refine ⟨st, hinit, hT ▸ taskCountOf_le_max _ _ _, rfl, ?_, ?_, ?_⟩
  · intro t
    rcases Nat.lt_or_ge t st.taskCount with h | h
    · obtain ⟨i, j, hi, _⟩ := hrec t h
      simp [hi, h]
    · simp [(hfresh t h).1, Nat.not_lt.mpr h]
  · intro t
    rcases Nat.lt_or_ge t st.taskCount with h | h
    · obtain ⟨i, j, _, hj, _⟩ := hrec t h
      simp [hj, h]
    · simp [(hfresh t h).2, Nat.not_lt.mpr h]
  · intro t ht
    obtain ⟨calls, hc, _, hgood, _⟩ := forForTask_spec array2 st hN t ht (hrec t ht)
    refine ⟨calls, hc, ?_⟩
    intro c hcm
    exact (List.getElem?_eq_some_iff.mp (hgood c hcm).entry).1

/-- Instance of the bounds property at scenario S1. -/
theorem outer_accesses_in_bounds_witness :
    1 ≤ 1 ∧
    ∃ st, ParallelForForState.init scenarioS1 1 4 = some st ∧
      st.taskCount ≤ MAX_TASKS ∧ MAX_TASKS = 32 ∧
      (∀ t, (st.i0 t).isSome = true ↔ t < st.taskCount) ∧
      (∀ t, (st.j0 t).isSome = true ↔ t < st.taskCount) ∧
      ∀ t, t < st.taskCount → ∃ calls, forForTask scenarioS1 st t = some calls ∧
        ∀ c ∈ calls, c.i < scenarioS1.length :=
  ⟨by decide, outer_accesses_in_bounds scenarioS1 1 4 (by decide)⟩

/-! ## The batch intersector -/

namespace isa

theorem bsfFrom_spec (valid : Nat) :
    ∀ (n i0 : Nat), (∃ j, i0 ≤ j ∧ j < i0 + n ∧ valid.testBit j = true) →
      ∃ r, bsfFrom valid n i0 = some r ∧ i0 ≤ r ∧ r < i0 + n ∧ valid.testBit r = true ∧
        ∀ j, i0 ≤ j → j < r → valid.testBit j = false := by
  intro n
  induction n with
  | zero =>
    rintro i0 ⟨j, h1, h2, _⟩
    omega
  | succ n ih =>
    rintro i0 ⟨j, h1, h2, h3⟩
    by_cases hb : valid.testBit i0 = true
    · refine ⟨i0, by simp [bsfFrom, hb], le_refl _, by omega, hb, ?_⟩
      intro j hj1 hj2
      omega
    · have hne : j ≠ i0 := by
        rintro rfl
        exact hb h3
      obtain ⟨r, hr, hr1, hr2, hr3, hr4⟩ := ih (i0 + 1) ⟨j, by omega, by omega, h3⟩
      refine ⟨r, by simp [bsfFrom, hb, hr], by omega, by omega, hr3, ?_⟩
      intro j1 hj1 hj2
      rcases Nat.eq_or_lt_of_le hj1 with h | h
      · subst h; simpa using hb
      · exact hr4 j1 h hj2

theorem testBit_clear (valid r j : Nat) (hr : valid.testBit r = true) :
    (valid ^^^ (1 <<< r)).testBit j = (valid.testBit j && decide (j ≠ r)) := by
  rw [Nat.testBit_xor, Nat.one_shiftLeft, Nat.testBit_two_pow]
  by_cases h : r = j
  · subst h; simp [hr]
  · have h2 : j ≠ r := fun e => h e.symm
    simp [h, h2]

theorem testBit_mark (isec r i : Nat) (c : Bool) :
    (isec ||| (if c = true then 1 <<< r else 0)).testBit i = true ↔
      isec.testBit i = true ∨ (i = r ∧ c = true) := by
  rw [Nat.testBit_or]
  cases c with
  | false => simp
  | true =>
    simp only [if_true, Nat.one_shiftLeft, Nat.testBit_two_pow, Bool.or_eq_true,
      decide_eq_true_eq, and_true]
    constructor
    · rintro (h | h)
      · exact Or.inl h
      · exact Or.inr h.symm
    · rintro (h | h)
      · exact Or.inl h
      · exact Or.inr h.symm

theorem batchLoop_spec {R P F : Type} (intersect1 : Nat → R → P → R) (tfar : R → F)
    (lt : F → F → Bool) (prim : List P) :
    ∀ (fuel valid isec : Nat) (rays : List R), valid ≠ 0 →
      (∀ i, valid.testBit i = true → 64 - fuel ≤ i ∧ i < 64 ∧ i < rays.length) →
      ∃ mask rays1 trace,
        batchLoop intersect1 tfar lt prim fuel valid isec rays = some (mask, rays1, trace) ∧
        (∀ i, mask.testBit i = true ↔ (isec.testBit i = true ∨ (valid.testBit i = true ∧
          ∃ r, rays[i]? = some r ∧
            lt (tfar (intersectPrims (intersect1 i) r prim)) (tfar r) = true))) ∧
        rays1.length = rays.length ∧
        (∀ i r, rays[i]? = some r → rays1[i]? =
          some (if valid.testBit i = true then intersectPrims (intersect1 i) r prim else r)) ∧
        trace.Pairwise (fun x y => x < y) ∧ (∀ i, i ∈ trace ↔ valid.testBit i = true) := by
  intro fuel
  induction fuel with
  | zero =>
    intro valid isec rays hne hbits
    obtain ⟨j, hj⟩ := Nat.ne_zero_implies_bit_true hne
    have := hbits j hj
    omega
  | succ fuel ih =>
    intro valid isec rays hne hbits
    obtain ⟨j, hj⟩ := Nat.ne_zero_implies_bit_true hne
    obtain ⟨r, hscan, _, _, hr, hbelow⟩ :=
      bsfFrom_spec valid 64 0 ⟨j, Nat.zero_le _, by have := hbits j hj; omega, hj⟩
    obtain ⟨hrlo, _, hrlen⟩ := hbits r hr
    obtain ⟨ray, hray⟩ : ∃ ray, rays[r]? = some ray := ⟨_, List.getElem?_eq_getElem hrlen⟩
    have hclear := fun i => testBit_clear valid r i hr
    have hleast : ∀ i, valid.testBit i = true → i ≠ r → r < i := by
      intro i hi hir
      by_contra hcon
      have := hbelow i (Nat.zero_le _) (by omega)
      rw [hi] at this
      exact Bool.noConfusion this
    have hset : ∀ i, (rays.set r (intersectPrims (intersect1 r) ray prim))[i]? =
        if r = i then some (intersectPrims (intersect1 r) ray prim)
        else rays[i]? := by
      intro i
      rw [List.getElem?_set]
      by_cases h : r = i
      · subst h; simp [hrlen]
      · simp [h]
    have hmark := fun i => testBit_mark isec r i
      (lt (tfar (intersectPrims (intersect1 r) ray prim))
        (tfar ray))
    have hbscf : __bscf valid = some (r, valid ^^^ (1 <<< r)) := by
      unfold __bscf
      rw [hscan]
      rfl
    by_cases hnext : valid ^^^ (1 <<< r) ≠ 0
    · obtain ⟨mask, rays2, trace, hrun, hmask, hlen, hrays, hpw, hmem⟩ :=
        ih (valid ^^^ (1 <<< r))
          (isec ||| (if lt (tfar (intersectPrims (intersect1 r) ray prim))
            (tfar ray) = true then 1 <<< r else 0))
          (rays.set r (intersectPrims (intersect1 r) ray prim)) hnext
          (by
            intro i hi
            rw [hclear] at hi
            simp only [Bool.and_eq_true, decide_eq_true_eq] at hi
            have h1 := hbits i hi.1
            have h2 := hleast i hi.1 hi.2
            rw [List.length_set]
            omega)
      refine ⟨mask, rays2, r :: trace, ?_, ?_, ?_, ?_, ?_, ?_⟩
      · rw [batchLoop]
        simp only [hbscf, hray, Option.bind_eq_bind, Option.some_bind, if_pos hnext, hrun]
      · intro i
        rw [hmask i, hmark i, hclear i, hset i]
        by_cases hir : r = i
        · subst hir
          simp [hray, hr]
        · have hir2 : i ≠ r := fun e => hir e.symm
          simp [hir, hir2]
      · rw [hlen, List.length_set]
      · intro i x hx
        by_cases hir : r = i
        · subst hir
          rw [hray] at hx
          cases hx
          rw [hrays r (intersectPrims (intersect1 r) ray prim) (by rw [hset]; simp), hclear]
          simp [hr]
        · have hir2 : i ≠ r := fun e => hir e.symm
          rw [hrays i x (by rw [hset]; simp [hir, hx]), hclear]
          simp [hir2]
      · rw [List.pairwise_cons]
        refine ⟨?_, hpw⟩
        intro i hi
        have h1 := (hmem i).mp hi
        rw [hclear] at h1
        simp only [Bool.and_eq_true, decide_eq_true_eq] at h1
        exact hleast i h1.1 h1.2
      · intro i
        rw [List.mem_cons, hmem i, hclear i]
        by_cases hir : i = r
        · subst hir; simp [hr]
        · simp [hir]
    · have hzero : valid ^^^ (1 <<< r) = 0 := not_not.mp hnext
      have honly : ∀ i, valid.testBit i = true → i = r := by
        intro i hi
        by_contra hir
        have h1 := hclear i
        rw [hzero, Nat.zero_testBit, hi] at h1
        simp [hir] at h1
      refine ⟨isec ||| (if lt (tfar (intersectPrims (intersect1 r) ray prim)) (tfar ray) = true
          then 1 <<< r else 0),
        rays.set r (intersectPrims (intersect1 r) ray prim), [r], ?_, ?_, ?_, ?_, ?_, ?_⟩
      · rw [batchLoop]
        simp only [hbscf, hray, Option.bind_eq_bind, Option.some_bind, if_neg hnext]
      · intro i
        rw [hmark i]
        by_cases hir : r = i
        · subst hir
          simp [hray, hr]
        · have hir2 : i ≠ r := fun e => hir e.symm
          have hv : ¬ valid.testBit i = true := fun h => hir2 (honly i h)
          simp [hir2, hv]
      · rw [List.length_set]
      · intro i x hx
        by_cases hir : r = i
        · subst hir
          rw [hray] at hx
          cases hx
          rw [hset]
          simp [hr]
        · have hir2 : i ≠ r := fun e => hir e.symm
          have hv : ¬ valid.testBit i = true := fun h => hir2 (honly i h)
          rw [hset]
          simp [hir, hx, hv]
      · exact List.pairwise_singleton _ _
      · intro i
        rw [List.mem_singleton]
        constructor
        · rintro rfl
          exact hr
        · exact honly i

theorem testBit_index_lt {valid n i : Nat} (h : valid < 2 ^ n) (hi : valid.testBit i = true) :
    i < n := by
  by_contra hcon
  have h1 : valid < 2 ^ i :=
    lt_of_lt_of_le h (Nat.pow_le_pow_right (by decide) (Nat.le_of_not_lt hcon))
  rw [Nat.testBit_lt_two_pow h1] at hi
  exact Bool.noConfusion hi

/-- C7: for the batch forms `QuadMiIntersector1Moeller::intersect` and
`QuadMiIntersector1Pluecker::intersect`, with the per-primitive intersector an arbitrary update
of one ray, for every non-zero 64-bit mask `valid` whose set bits index existing rays and
every primitive array: the call returns; bit `i` of the returned mask is set if and only if
bit `i` of `valid` is set and the `tfar` of ray `i` after intersecting it with
`prim[0], ..., prim[num-1]` in order (the left fold of the per-primitive intersector over
`prim`) is less than its `tfar` before; every ray whose bit is set has been intersected with
all primitives in that order and every other ray is unchanged; and the loop
runs once for each set bit of `valid` (in increasing order of the bit index) and for no other
index. -/
theorem batch_intersect_mask {R P F : Type} (intersect1 : Nat → R → P → R) (tfar : R → F)
    (lt : F → F → Bool) (valid : Nat) (rays : List R) (prim : List P)
    (hvalid : valid ≠ 0) (hword : valid < 2 ^ 64)
    (hrays : ∀ i, valid.testBit i = true → i < rays.length) :
    ∃ mask rays1 trace,
      QuadMiIntersector1Moeller.intersect intersect1 tfar lt valid rays prim =
        some (mask, rays1, trace) ∧
      QuadMiIntersector1Pluecker.intersect intersect1 tfar lt valid rays prim =
        some (mask, rays1, trace) ∧
      (∀ i, mask.testBit i = true ↔ (valid.testBit i = true ∧
        ∃ r, rays[i]? = some r ∧
          lt (tfar (prim.foldl (intersect1 i) r)) (tfar r) = true)) ∧
      rays1.length = rays.length ∧
      (∀ i r, rays[i]? = some r → rays1[i]? =
        some (if valid.testBit i = true then prim.foldl (intersect1 i) r else r)) ∧
      trace.Pairwise (fun x y => x < y) ∧ (∀ i, i ∈ trace ↔ valid.testBit i = true) := by
  obtain ⟨mask, rays1, trace, hrun, hmask, hlen, hr, hpw, hmem⟩ :=
    batchLoop_spec intersect1 tfar lt prim 64 valid 0 rays hvalid
      (fun i hi => ⟨by omega, testBit_index_lt hword hi, hrays i hi⟩)
  have hfold : ∀ (i : Nat) (r : R),
      intersectPrims (intersect1 i) r prim = prim.foldl (intersect1 i) r := fun _ _ => rfl
  refine ⟨mask, rays1, trace, hrun, hrun, ?_, hlen, ?_, hpw, hmem⟩
  · intro i
    rw [hmask i, Nat.zero_testBit]
    simp only [hfold]
    simp
  · intro i r hir
    rw [hr i r hir, hfold]

/-- Instance of the batch property: five rays with `tfar` 10, 20, 30, 40, 50, the mask `0b1011`,
and three primitives that cut `tfar` down to 25, 15 and 35. -/
theorem batch_intersect_mask_witness :
    (11 : Nat) ≠ 0 ∧ (11 : Nat) < 2 ^ 64 ∧
    (∀ i, Nat.testBit 11 i = true → i < [10, 20, 30, 40, 50].length) ∧
    ∃ mask rays1 trace,
      QuadMiIntersector1Moeller.intersect (fun _ r p => min r p) id (fun x y => decide (x < y))
        11 [10, 20, 30, 40, 50] [25, 15, 35] = some (mask, rays1, trace) ∧
      QuadMiIntersector1Pluecker.intersect (fun _ r p => min r p) id (fun x y => decide (x < y))
        11 [10, 20, 30, 40, 50] [25, 15, 35] = some (mask, rays1, trace) ∧
      (∀ i, mask.testBit i = true ↔ (Nat.testBit 11 i = true ∧
        ∃ r, [10, 20, 30, 40, 50][i]? = some r ∧
          (fun x y => decide (x < y))
            (id ([25, 15, 35].foldl ((fun _ r p => min r p) i) r)) (id r) = true)) ∧
      rays1.length = [10, 20, 30, 40, 50].length ∧
      (∀ i r, [10, 20, 30, 40, 50][i]? = some r → rays1[i]? =
        some (if Nat.testBit 11 i = true then
          [25, 15, 35].foldl ((fun _ r p => min r p) i) r else r)) ∧
      trace.Pairwise (fun x y => x < y) ∧ (∀ i, i ∈ trace ↔ Nat.testBit 11 i = true) :=
  ⟨by decide, by decide, fun _ hi => testBit_index_lt (by decide : (11 : Nat) < 2 ^ 5) hi,
    batch_intersect_mask (fun _ r p => min r p) id (fun x y => decide (x < y)) 11
      [10, 20, 30, 40, 50] [25, 15, 35] (by decide) (by decide)
      (fun _ hi => testBit_index_lt (by decide : (11 : Nat) < 2 ^ 5) hi)⟩

end isa

end embree
